import Mathlib

/-!
Verification of the i18n key management and merge engine of the think-bot
repository (files `scripts/i18n_manager.py` and `scripts/key_merger.py`).

The Python code is shallowly embedded:

* a Python `dict` (insertion ordered, unique keys) becomes an association
  list `List (String × α)` with `dictGet?`, `dictContains`, `dictSet`
  (update in place, append when absent) and `dictDel`;
* `I18nKeyMerger.merge_language_files`'s loop body becomes `mergeStep`,
  the whole loop `applyMapping`, the trailing "add new keys that might be
  missing" block `addNewKeys`, and the per-language transformation
  `merge_language_files_catalog`;
* `I18nManager.find_missing_keys` / `find_unused_keys` become set
  differences on `Finset String`;
* `I18nManager.find_duplicate_text_keys` becomes `find_duplicate_text_keys`
  over the same grouping structure (a dict from trimmed text to key list);
* each regular expression the scripts use is embedded as a deterministic
  scanner that provably agrees with the leftmost, greedy semantics of
  `re.findall` / `re.sub` on these particular patterns (for every pattern
  the greedy sub-expressions are followed by characters disjoint from the
  repeated class, so no backtracking can succeed where the maximal munch
  fails).
-/

/-! ## Characters and Python-flavored helpers -/

/-- The double-quote character. -/
def dQuote : Char := Char.ofNat 34

/-- The single-quote character. -/
def sQuote : Char := Char.ofNat 39

/-- Case-insensitive character comparison, as produced by `re.IGNORECASE`. -/
def lowEq (a b : Char) : Bool := a.toLower == b.toLower

/-- Python's `\s` class (ASCII part): space, tab, newline, CR, VT, FF. -/
def isSpaceCh (c : Char) : Bool :=
  c == ' ' || c == '\t' || c == '\n' || c == '\x0d' || c == Char.ofNat 11 || c == Char.ofNat 12

/-- Python's `\w` class (ASCII part): letters, digits and underscore. -/
def isWordCh (c : Char) : Bool := c.isAlpha || c.isDigit || c == '_'

/-- Python `str.strip()` on a character list (strips ASCII whitespace). -/
def pyStrip (cs : List Char) : List Char :=
  ((cs.dropWhile isSpaceCh).reverse.dropWhile isSpaceCh).reverse

/-- Convert a string literal to the character list the scanners work on. -/
def toL (s : String) : List Char := s.data

/-! ## Python `dict` as an association list -/

/-- One catalog value: an object with a `message` field (`none` models an
entry whose value is not an object carrying `message`, which
`find_duplicate_text_keys` skips) plus auxiliary fields preserved verbatim. -/
structure MessageEntry where
  message? : Option (List Char)
  aux : List (String × String) := []
deriving DecidableEq, Repr

/-- A language catalog: the content of one `messages.json`, a Python dict
from key to entry, in insertion order with unique keys. -/
abbrev Catalog := List (String × MessageEntry)

variable {κ : Type} [DecidableEq κ]

/-- `d[k]` (as an option) on a Python dict. -/
def dictGet? : List (κ × α) → κ → Option α
  | [], _ => none
  | p :: c, k => if p.1 = k then some p.2 else dictGet? c k

/-- `k in d` on a Python dict. -/
def dictContains : List (κ × α) → κ → Bool
  | [], _ => false
  | p :: c, k => p.1 == k || dictContains c k

/-- `d[k] = v` on a Python dict: update in place when the key exists,
append at the end otherwise. -/
def dictSet (c : List (κ × α)) (k : κ) (v : α) : List (κ × α) :=
  if dictContains c k then c.map (fun p => if p.1 == k then (k, v) else p)
  else c ++ [(k, v)]

/-- `del d[k]` on a Python dict. -/
def dictDel (c : List (κ × α)) (k : κ) : List (κ × α) :=
  c.filter (fun p => p.1 != k)

theorem dictGet?_isSome_iff_contains (c : List (κ × α)) (k : κ) :
    (dictGet? c k).isSome = dictContains c k := by
  induction c with
  | nil => rfl
  | cons p c ih =>
    by_cases h : p.1 = k <;> simp [dictGet?, dictContains, h, ih]

theorem dictGet?_del_self (c : List (κ × α)) (k : κ) :
    dictGet? (dictDel c k) k = none := by
  induction c with
  | nil => rfl
  | cons p c ih =>
    by_cases h : p.1 = k <;> simp [dictDel, dictGet?, h] at ih ⊢ <;>
      simpa [dictDel] using ih

theorem dictGet?_del_ne (c : List (κ × α)) {k k' : κ} (h : k' ≠ k) :
    dictGet? (dictDel c k) k' = dictGet? c k' := by
  induction c with
  | nil => rfl
  | cons p c ih =>
    by_cases hp : p.1 = k
    · simpa [dictDel, dictGet?, hp, Ne.symm h] using ih
    · by_cases hp' : p.1 = k'
      · simp [dictDel, dictGet?, List.filter_cons, hp, hp', h]
      · simpa [dictDel, dictGet?, hp, hp'] using ih

theorem dictContains_del_ne (c : List (κ × α)) {k k' : κ} (h : k' ≠ k) :
    dictContains (dictDel c k) k' = dictContains c k' := by
  rw [← dictGet?_isSome_iff_contains, ← dictGet?_isSome_iff_contains,
    dictGet?_del_ne c h]

theorem dictGet?_append_right (c : List (κ × α)) (k : κ) (v : α)
    (h : dictContains c k = false) :
    dictGet? (c ++ [(k, v)]) k = some v := by
  induction c with
  | nil => simp [dictGet?]
  | cons p c ih =>
    simp only [dictContains, Bool.or_eq_false_iff, beq_eq_false_iff_ne, ne_eq] at h
    have := ih (by simp [h.2])
    simpa [dictGet?, h.1] using this

theorem dictGet?_append_ne (c : List (κ × α)) {k k' : κ} (v : α)
    (h : k' ≠ k) :
    dictGet? (c ++ [(k, v)]) k' = dictGet? c k' := by
  induction c with
  | nil => simp [dictGet?, Ne.symm h]
  | cons p c ih =>
    by_cases hp : p.1 = k' <;> simp [dictGet?, hp, ih]

theorem dictGet?_mapSet_self (c : List (κ × α)) (k : κ) (v : α)
    (h : dictContains c k = true) :
    dictGet? (c.map (fun p => if p.1 == k then (k, v) else p)) k = some v := by
  induction c with
  | nil => simp [dictContains] at h
  | cons p c ih =>
    by_cases hp : p.1 = k
    · simp [dictGet?, hp]
    · simp only [dictContains, Bool.or_eq_true, beq_iff_eq, hp, false_or] at h
      simpa [dictGet?, hp] using ih h

theorem dictGet?_mapSet_ne (c : List (κ × α)) {k k' : κ} (v : α)
    (h : k' ≠ k) :
    dictGet? (c.map (fun p => if p.1 == k then (k, v) else p)) k' = dictGet? c k' := by
  induction c with
  | nil => rfl
  | cons p c ih =>
    by_cases hp : p.1 = k
    · simpa [dictGet?, hp, Ne.symm h] using ih
    · by_cases hp' : p.1 = k'
      · simp [dictGet?, hp, hp', h]
      · simpa [dictGet?, hp, hp'] using ih

theorem dictGet?_set_self (c : List (κ × α)) (k : κ) (v : α) :
    dictGet? (dictSet c k v) k = some v := by
  unfold dictSet
  by_cases h : dictContains c k = true
  · simpa only [h, if_true] using dictGet?_mapSet_self c k v h
  · simp only [h, if_false]
    exact dictGet?_append_right c k v (by simpa using h)

theorem dictGet?_set_ne (c : List (κ × α)) {k k' : κ} (v : α)
    (h : k' ≠ k) :
    dictGet? (dictSet c k v) k' = dictGet? c k' := by
  unfold dictSet
  by_cases hc : dictContains c k = true
  · simpa only [hc, if_true] using dictGet?_mapSet_ne c v h
  · simp only [hc, if_false]
    exact dictGet?_append_ne c v h

theorem dictContains_set_ne (c : List (κ × α)) {k k' : κ} (v : α)
    (h : k' ≠ k) :
    dictContains (dictSet c k v) k' = dictContains c k' := by
  rw [← dictGet?_isSome_iff_contains, ← dictGet?_isSome_iff_contains,
    dictGet?_set_ne c v h]

theorem dictContains_set_self (c : List (κ × α)) (k : κ) (v : α) :
    dictContains (dictSet c k v) k = true := by
  rw [← dictGet?_isSome_iff_contains, dictGet?_set_self]; rfl

/-! ## The catalog-side merge (`I18nKeyMerger.merge_language_files`) -/

/-- One iteration of the `for old_key, new_key in self.merge_mapping.items()`
loop of `merge_language_files` (key_merger.py lines 149-163):

* `old` absent: the catalog is untouched;
* target `none` (Python `None`): `del messages[old]`;
* target present as a key: `del messages[old]` (keep the existing entry);
* otherwise: `messages[new] = messages[old]` then `del messages[old]`. -/
def mergeStep (c : Catalog) (e : String × Option String) : Catalog :=
  match dictGet? c e.1 with
  | none => c
  | some v =>
    match e.2 with
    | none => dictDel c e.1
    | some new =>
      if dictContains c new then dictDel c e.1
      else dictDel (dictSet c new v) e.1

/-- The whole merge-mapping loop, entries applied in mapping order. -/
def applyMapping (m : List (String × Option String)) (c : Catalog) : Catalog :=
  m.foldl mergeStep c

/-- Message text of the built-in `common_model` entry for `zh_CN`.  The
source file is double-encoded, so the literal characters of the Python
string are mojibake; they are reproduced code point by code point. -/
def zhModelText : List Char :=
  [Char.ofNat 0xe9, Char.ofNat 0xbb, Char.ofNat 0x2dc, Char.ofNat 0xe8,
   Char.ofNat 0xae, Char.ofNat 0xa4, Char.ofNat 0xe6, Char.ofNat 0xa8,
   Char.ofNat 0xa1, Char.ofNat 0xe5, Char.ofNat 0x17e, Char.ofNat 0x2039]

/-- Message text of the built-in `common_send_message` entry for `zh_CN`. -/
def zhSendText : List Char :=
  [Char.ofNat 0xe5, Char.ofNat 0x2018, Char.ofNat 0xe9, Char.ofNat 0x20ac,
   Char.ofNat 0xe6, Char.ofNat 0xb6, Char.ofNat 0x2c6, Char.ofNat 0xe6,
   Char.ofNat 0xaf]

/-- First entry of the `new_keys` dict of `merge_language_files`
(key_merger.py lines 167-170). -/
def nkModel : String × List (String × MessageEntry) :=
  ("common_model",
   [("en", ⟨some (toL "Model"), []⟩), ("zh_CN", ⟨some zhModelText, []⟩)])

/-- Second entry of the `new_keys` dict (key_merger.py lines 171-174). -/
def nkSend : String × List (String × MessageEntry) :=
  ("common_send_message",
   [("en", ⟨some (toL "Send message"), []⟩), ("zh_CN", ⟨some zhSendText, []⟩)])

/-- The `new_keys` dict of `merge_language_files` (key_merger.py lines
166-175): two keys, each with one entry per language code. -/
def newKeysSpec : List (String × List (String × MessageEntry)) := [nkModel, nkSend]

/-- One iteration of the `for key, lang_data in new_keys.items()` loop
(key_merger.py lines 177-180):
`if key not in messages and lang_code in lang_data: messages[key] = ...`. -/
def addOneKey (lang : String) (msgs : Catalog)
    (kv : String × List (String × MessageEntry)) : Catalog :=
  if dictContains msgs kv.1 = false then
    match dictGet? kv.2 lang with
    | some e => dictSet msgs kv.1 e
    | none => msgs
  else msgs

/-- The whole add-new-keys loop. -/
def addNewKeys (lang : String) (c : Catalog) : Catalog :=
  newKeysSpec.foldl (addOneKey lang) c

/-- The full catalog transformation `merge_language_files` performs for one
language: the merge-mapping loop followed by the add-new-keys loop (the
surrounding file I/O is the collaborator boundary). -/
def merge_language_files_catalog (lang : String) (m : List (String × Option String))
    (c : Catalog) : Catalog :=
  addNewKeys lang (applyMapping m c)

/-- The static `merge_mapping` of `I18nKeyMerger.__init__` (key_merger.py
lines 40-120), in source order; `none` is the Python `None` tombstone. -/
def merge_mapping : List (String × Option String) :=
  [("global_ask_placeholder", some "common_ask_placeholder"),
   ("sidebar_placeholder_ask", some "common_ask_placeholder"),
   ("global_cancel_button", some "common_cancel"),
   ("options_blacklist_cancel_button", some "common_cancel"),
   ("sidebar_confirmationOverlay_cancel", some "common_cancel"),
   ("sidebar_tabManager_text_chat", some "common_chat"),
   ("sidebar_confirmationOverlay_confirm", some "common_confirm"),
   ("sidebar_confirmationOverlay_title", some "common_confirm"),
   ("sidebar_confirmationOverlay_areYouSure", some "common_confirm_are_you_sure"),
   ("sidebar_chatManager_title_copyMarkdown", some "common_copy_markdown"),
   ("global_delete_button", some "common_delete"),
   ("global_export_conversation_title", some "common_export_conversation"),
   ("sidebar_title_exportConversation", some "common_export_conversation"),
   ("global_include_page_content_title", some "common_include_page_content"),
   ("sidebar_title_includePageContent", some "common_include_page_content"),
   ("sidebar_chatManager_title_retry", some "common_retry"),
   ("options_save_button", some "common_save"),
   ("global_send_message_title", some "common_send_message"),
   ("sidebar_title_sendMessage", some "common_send_message"),
   ("options_js_syncing", some "common_syncing"),
   ("options_js_sync_status_syncing", some "common_syncing"),
   ("options_blacklist_update_button", some "common_update"),
   ("options_language_title", some "options_language_label"),
   ("options_quick_input_placeholder_button_text", some "options_quick_input_button_text_label"),
   ("options_js_sync_status_not_configured", some "options_sync_status_not_configured"),
   ("options_system_prompt_title", some "options_system_prompt_label"),
   ("options_theme_title", some "options_theme_label"),
   ("sidebar_tabManager_text_retryingMessage", some "sidebar_tabManager_retryingMessage"),
   ("sidebar_confirmationOverlay_matchedPattern", some "common_matched_pattern"),
   ("sidebar_js_responseStoppedByUser", some "conversations_js_response_stopped"),
   ("options_default_model_title", some "common_model"),
   ("branch_selectModel", none)]

/-! ## Facts about `mergeStep`, `applyMapping` and `addNewKeys` -/

theorem dictContains_del_self (c : List (String × α)) (k : String) :
    dictContains (dictDel c k) k = false := by
  rw [← dictGet?_isSome_iff_contains, dictGet?_del_self]; rfl

theorem dictGet?_eq_none_of_not_contains (c : List (κ × α)) {k : κ}
    (h : dictContains c k = false) : dictGet? c k = none := by
  have := dictGet?_isSome_iff_contains c k
  rw [h] at this
  exact Option.not_isSome_iff_eq_none.mp (by simp [this])

/-- After its own mapping entry is processed, an old key is gone (provided
its target is not the key itself, which the move branch anyway excludes). -/
theorem contains_mergeStep_self (c : Catalog) (old : String) (t : Option String) :
    dictContains (mergeStep c (old, t)) old = false
    ∨ mergeStep c (old, t) = c ∧ dictContains c old = false := by
  unfold mergeStep
  cases hv : dictGet? c old with
  | none =>
    right
    refine ⟨rfl, ?_⟩
    have := dictGet?_isSome_iff_contains c old
    rw [hv] at this
    simpa using this.symm
  | some v =>
    left
    cases t with
    | none => exact dictContains_del_self c old
    | some new =>
      by_cases hn : dictContains c new
      · simp only [hn, if_true]
        exact dictContains_del_self c old
      · simp only [hn, Bool.false_eq_true, if_false]
        exact dictContains_del_self _ old

/-- A key that is absent stays absent through a merge step that never
targets it. -/
theorem contains_mergeStep_absent (c : Catalog) (e : String × Option String)
    {k : String} (hc : dictContains c k = false)
    (ht : ∀ n, e.2 = some n → n ≠ k) :
    dictContains (mergeStep c e) k = false := by
  unfold mergeStep
  cases hv : dictGet? c e.1 with
  | none => exact hc
  | some v =>
    have hek : e.1 ≠ k := by
      intro h
      rw [h] at hv
      rw [dictGet?_eq_none_of_not_contains c hc] at hv
      cases hv
    cases he : e.2 with
    | none => rw [dictContains_del_ne c (Ne.symm hek)]; exact hc
    | some new =>
      have hnk : new ≠ k := ht new he
      by_cases hn : dictContains c new
      · simp only [hn, if_true]
        rw [dictContains_del_ne c (Ne.symm hek)]; exact hc
      · simp only [hn, Bool.false_eq_true, if_false]
        rw [dictContains_del_ne _ (Ne.symm hek), dictContains_set_ne c v (Ne.symm hnk)]
        exact hc

/-- A key that is absent stays absent through a whole mapping that never
targets it. -/
theorem contains_applyMapping_absent (m : List (String × Option String))
    (c : Catalog) {k : String} (hc : dictContains c k = false)
    (ht : ∀ e ∈ m, ∀ n, e.2 = some n → n ≠ k) :
    dictContains (applyMapping m c) k = false := by
  induction m generalizing c with
  | nil => exact hc
  | cons e m ih =>
    have : applyMapping (e :: m) c = applyMapping m (mergeStep c e) := rfl
    rw [this]
    exact ih (mergeStep c e)
      (contains_mergeStep_absent c e hc (ht e (List.mem_cons_self e m)))
      (fun e' he' => ht e' (List.mem_cons_of_mem e he'))

/-- After the whole mapping loop, every old key that is never a target of
the mapping is absent. -/
theorem contains_applyMapping_old (m : List (String × Option String))
    (c : Catalog) {k : String} (hk : k ∈ m.map Prod.fst)
    (ht : ∀ e ∈ m, ∀ n, e.2 = some n → n ≠ k) :
    dictContains (applyMapping m c) k = false := by
  induction m generalizing c with
  | nil => simp at hk
  | cons e m ih =>
    have hstep : applyMapping (e :: m) c = applyMapping m (mergeStep c e) := rfl
    rw [hstep]
    by_cases hek : e.1 = k
    · have habs : dictContains (mergeStep c e) k = false := by
        rcases contains_mergeStep_self c e.1 e.2 with h | ⟨heq, habs⟩
        · rw [hek] at h
          have : (e.1, e.2) = e := rfl
          rw [← hek]
          rw [show mergeStep c e = mergeStep c (e.1, e.2) from rfl]
          rw [hek]
          exact h
        · rw [show mergeStep c e = mergeStep c (e.1, e.2) from rfl, heq, ← hek]
          exact habs
      exact contains_applyMapping_absent m (mergeStep c e) habs
        (fun e' he' => ht e' (List.mem_cons_of_mem e he'))
    · have hk' : k ∈ m.map Prod.fst := by
        rcases List.mem_map.mp hk with ⟨p, hp, hfst⟩
        rcases List.mem_cons.mp hp with h | h
        · exact absurd (h ▸ hfst) hek
        · exact List.mem_map.mpr ⟨p, h, hfst⟩
      exact ih (mergeStep c e) hk' (fun e' he' => ht e' (List.mem_cons_of_mem e he'))

/-- A merge step whose old key is absent does nothing. -/
theorem mergeStep_noop (c : Catalog) (e : String × Option String)
    (h : dictContains c e.1 = false) : mergeStep c e = c := by
  unfold mergeStep
  rw [dictGet?_eq_none_of_not_contains c h]

/-- A mapping all of whose old keys are absent does nothing. -/
theorem applyMapping_noop (m : List (String × Option String)) (c : Catalog)
    (h : ∀ e ∈ m, dictContains c e.1 = false) : applyMapping m c = c := by
  induction m with
  | nil => rfl
  | cons e m ih =>
    have hstep : applyMapping (e :: m) c = applyMapping m (mergeStep c e) := rfl
    rw [hstep, mergeStep_noop c e (h e (List.mem_cons_self e m))]
    exact ih (fun e' he' => h e' (List.mem_cons_of_mem e he'))

theorem addOneKey_of_contains (lang : String) (msgs : Catalog)
    (kv : String × List (String × MessageEntry))
    (h : dictContains msgs kv.1 = true) : addOneKey lang msgs kv = msgs := by
  unfold addOneKey
  rw [h]
  simp

theorem addOneKey_of_none (lang : String) (msgs : Catalog)
    (kv : String × List (String × MessageEntry))
    (h : dictGet? kv.2 lang = none) : addOneKey lang msgs kv = msgs := by
  unfold addOneKey
  rw [h]
  split <;> rfl

theorem contains_addOneKey_self_of_some (lang : String) (msgs : Catalog)
    (kv : String × List (String × MessageEntry)) {e : MessageEntry}
    (h : dictGet? kv.2 lang = some e) :
    dictContains (addOneKey lang msgs kv) kv.1 = true := by
  unfold addOneKey
  rw [h]
  by_cases hc : dictContains msgs kv.1 = true
  · simp only [hc]
    simpa using hc
  · have hc' : dictContains msgs kv.1 = false := by simpa using hc
    rw [hc']
    simpa using dictContains_set_self msgs kv.1 e

theorem contains_addOneKey_ne (lang : String) (msgs : Catalog)
    (kv : String × List (String × MessageEntry)) {k : String} (h : k ≠ kv.1) :
    dictContains (addOneKey lang msgs kv) k = dictContains msgs k := by
  unfold addOneKey
  split
  · split
    · exact dictContains_set_ne msgs _ h
    · rfl
  · rfl

theorem dictGet?_addOneKey_ne (lang : String) (msgs : Catalog)
    (kv : String × List (String × MessageEntry)) {k : String} (h : k ≠ kv.1) :
    dictGet? (addOneKey lang msgs kv) k = dictGet? msgs k := by
  unfold addOneKey
  split
  · split
    · exact dictGet?_set_ne msgs _ h
    · rfl
  · rfl

/-- `addNewKeys` unfolded to its two iterations. -/
theorem addNewKeys_eq (lang : String) (c : Catalog) :
    addNewKeys lang c = addOneKey lang (addOneKey lang c nkModel) nkSend := rfl

theorem nkSend_fst_ne_nkModel_fst : nkSend.1 ≠ nkModel.1 := by
  rw [nkSend, nkModel]
  decide

theorem contains_addNewKeys_ne (lang : String) (c : Catalog) {k : String}
    (h1 : k ≠ nkModel.1) (h2 : k ≠ nkSend.1) :
    dictContains (addNewKeys lang c) k = dictContains c k := by
  rw [addNewKeys_eq, contains_addOneKey_ne lang _ _ h2, contains_addOneKey_ne lang _ _ h1]

/-- `addNewKeys` never removes a key, and inserts at most the two built-in
keys, so running it twice is the same as running it once. -/
theorem addNewKeys_idem (lang : String) (c : Catalog) :
    addNewKeys lang (addNewKeys lang c) = addNewKeys lang c := by
  rw [addNewKeys_eq lang (addNewKeys lang c)]
  have h1 : addOneKey lang (addNewKeys lang c) nkModel = addNewKeys lang c := by
    cases ho : dictGet? nkModel.2 lang with
    | none => exact addOneKey_of_none lang _ nkModel ho
    | some e =>
      refine addOneKey_of_contains lang _ nkModel ?_
      rw [addNewKeys_eq, contains_addOneKey_ne lang _ _ (Ne.symm nkSend_fst_ne_nkModel_fst)]
      exact contains_addOneKey_self_of_some lang c nkModel ho
  rw [h1]
  cases ho : dictGet? nkSend.2 lang with
  | none => exact addOneKey_of_none lang _ nkSend ho
  | some e =>
    refine addOneKey_of_contains lang _ nkSend ?_
    rw [addNewKeys_eq]
    exact contains_addOneKey_self_of_some lang _ nkSend ho

/-! ## Claim C1: per-entry resolution policy of the catalog-side merge -/

/-- **C1** (amended).  For every merge-mapping entry `(old, t)` and catalog:

* if `old` is absent the catalog is unchanged;
* if the target is the tombstone, the entry at `old` is deleted and every
  other key is untouched;
* if the target `new` is absent, the full content moves from `old` to
  `new` and every other key is untouched;
* if the target `new` is already present and distinct from `old`, the
  `old` entry is discarded and the existing `new` entry is kept unchanged;
* (amendment) if the target equals `old` and `old` is present, the entry
  is deleted outright — its content is not kept. -/
theorem C1_merge_entry_policy (c : Catalog) (old : String) (t : Option String) :
    (dictContains c old = false → mergeStep c (old, t) = c)
    ∧ (dictContains c old = true →
        dictGet? (mergeStep c (old, none)) old = none
        ∧ ∀ k, k ≠ old → dictGet? (mergeStep c (old, none)) k = dictGet? c k)
    ∧ (∀ new, dictContains c old = true → dictContains c new = false →
        dictGet? (mergeStep c (old, some new)) new = dictGet? c old
        ∧ dictGet? (mergeStep c (old, some new)) old = none
        ∧ ∀ k, k ≠ old → k ≠ new →
            dictGet? (mergeStep c (old, some new)) k = dictGet? c k)
    ∧ (∀ new, dictContains c old = true → dictContains c new = true → new ≠ old →
        dictGet? (mergeStep c (old, some new)) new = dictGet? c new
        ∧ dictGet? (mergeStep c (old, some new)) old = none
        ∧ ∀ k, k ≠ old → k ≠ new →
            dictGet? (mergeStep c (old, some new)) k = dictGet? c k)
    ∧ (dictContains c old = true →
        dictGet? (mergeStep c (old, some old)) old = none
        ∧ ∀ k, k ≠ old → dictGet? (mergeStep c (old, some old)) k = dictGet? c k) := by
  refine ⟨?_, ?_, ?_, ?_, ?_⟩
  · intro h
    exact mergeStep_noop c (old, t) h
  · intro h
    obtain ⟨v, hv⟩ : ∃ v, dictGet? c old = some v := by
      have := dictGet?_isSome_iff_contains c old
      rw [h] at this
      exact Option.isSome_iff_exists.mp this
    have hstep : mergeStep c (old, none) = dictDel c old := by
      unfold mergeStep
      rw [hv]
    rw [hstep]
    exact ⟨dictGet?_del_self c old, fun k hk => dictGet?_del_ne c hk⟩
  · intro new h hn
    obtain ⟨v, hv⟩ : ∃ v, dictGet? c old = some v := by
      have := dictGet?_isSome_iff_contains c old
      rw [h] at this
      exact Option.isSome_iff_exists.mp this
    have hno : new ≠ old := by
      intro heq
      rw [heq, h] at hn
      cases hn
    have hstep : mergeStep c (old, some new) = dictDel (dictSet c new v) old := by
      unfold mergeStep
      rw [hv]
      simp [hn]
    rw [hstep]
    refine ⟨?_, dictGet?_del_self _ old, ?_⟩
    · rw [dictGet?_del_ne _ hno, dictGet?_set_self, hv]
    · intro k hk hk'
      rw [dictGet?_del_ne _ hk, dictGet?_set_ne c v hk']
  · intro new h hn hno
    have hstep : mergeStep c (old, some new) = dictDel c old := by
      obtain ⟨v, hv⟩ : ∃ v, dictGet? c old = some v := by
        have := dictGet?_isSome_iff_contains c old
        rw [h] at this
        exact Option.isSome_iff_exists.mp this
      unfold mergeStep
      rw [hv]
      simp [hn]
    rw [hstep]
    exact ⟨dictGet?_del_ne c hno, dictGet?_del_self c old,
      fun k hk _ => dictGet?_del_ne c hk⟩
  · intro h
    have hstep : mergeStep c (old, some old) = dictDel c old := by
      obtain ⟨v, hv⟩ : ∃ v, dictGet? c old = some v := by
        have := dictGet?_isSome_iff_contains c old
        rw [h] at this
        exact Option.isSome_iff_exists.mp this
      unfold mergeStep
      rw [hv]
      simp [h]
    rw [hstep]
    exact ⟨dictGet?_del_self c old, fun k hk => dictGet?_del_ne c hk⟩

/-- Sample catalog used to exercise the merge claims. -/
def exCatalogC1 : Catalog :=
  [("a", ⟨some (toL "Cancel"), []⟩), ("b", ⟨some (toL "Save"), []⟩)]

/-- Witness for `C1_merge_entry_policy`: at a concrete catalog and entry,
every hypothesis is discharged and the move case is observed. -/
theorem C1_merge_entry_policy_witness :
    dictContains exCatalogC1 "a" = true
    ∧ dictContains exCatalogC1 "c" = false
    ∧ dictGet? (mergeStep exCatalogC1 ("a", some "c")) "c" = dictGet? exCatalogC1 "a" :=
  ⟨by decide, by decide,
    ((C1_merge_entry_policy exCatalogC1 "a" (some "c")).2.2.1 "c"
      (by decide) (by decide)).1⟩

/-- Counterexample to C1 as stated: with the entry `("a", some "a")` the
target is "already present" (it is `old` itself), yet the existing entry's
content is *not* kept — the code deletes the key outright. -/
theorem C1_counterexample_self_target :
    dictContains exCatalogC1 "a" = true
    ∧ ¬ dictGet? (mergeStep exCatalogC1 ("a", some "a")) "a" = dictGet? exCatalogC1 "a" := by
  decide

/-! ## Claim C4: idempotence of the catalog-side merge -/

/-- **C4** (amended).  Applying the catalog-side merge twice is the same as
applying it once, **provided** no old key of the mapping can be
re-introduced by the first application: no old key occurs as a rename
target of the mapping, nor is one of the two built-in keys the merge
unconditionally inserts.  (Without the proviso the claim is false, see the
counterexample: a chained mapping re-creates an old key.) -/
theorem C4_merge_idempotent (lang : String) (m : List (String × Option String))
    (c : Catalog)
    (hTargets : ∀ e ∈ m, ∀ n, e.2 = some n → n ∉ m.map Prod.fst)
    (hModel : "common_model" ∉ m.map Prod.fst)
    (hSend : "common_send_message" ∉ m.map Prod.fst) :
    merge_language_files_catalog lang m (merge_language_files_catalog lang m c)
      = merge_language_files_catalog lang m c := by
  unfold merge_language_files_catalog
  have habs : ∀ e ∈ m, dictContains (addNewKeys lang (applyMapping m c)) e.1 = false := by
    intro e he
    have h1 : dictContains (applyMapping m c) e.1 = false := by
      refine contains_applyMapping_old m c (List.mem_map.mpr ⟨e, he, rfl⟩) ?_
      intro e' he' n hn
      intro heq
      exact hTargets e' he' n hn (heq ▸ List.mem_map.mpr ⟨e, he, rfl⟩)
    have hm : e.1 ≠ nkModel.1 := by
      intro heq
      apply hModel
      have hname : nkModel.1 = "common_model" := rfl
      rw [← hname, ← heq]
      exact List.mem_map.mpr ⟨e, he, rfl⟩
    have hs : e.1 ≠ nkSend.1 := by
      intro heq
      apply hSend
      have hname : nkSend.1 = "common_send_message" := rfl
      rw [← hname, ← heq]
      exact List.mem_map.mpr ⟨e, he, rfl⟩
    rw [contains_addNewKeys_ne lang _ hm hs]
    exact h1
  rw [applyMapping_noop m _ habs, addNewKeys_idem]

/-- Witness for `C4_merge_idempotent` at a concrete mapping and catalog. -/
theorem C4_merge_idempotent_witness :
    (∀ e ∈ [("old", some "new")], ∀ n, e.2 = some n →
        n ∉ [("old", some "new")].map Prod.fst)
    ∧ "common_model" ∉ [("old", some "new")].map Prod.fst
    ∧ "common_send_message" ∉ [("old", some "new")].map Prod.fst
    ∧ merge_language_files_catalog "en" [("old", some "new")]
        (merge_language_files_catalog "en" [("old", some "new")] exCatalogC1)
      = merge_language_files_catalog "en" [("old", some "new")] exCatalogC1 :=
  ⟨by decide, by decide, by decide,
    C4_merge_idempotent "en" [("old", some "new")] exCatalogC1
      (by decide) (by decide) (by decide)⟩

/-- Chained mapping of the spec's Scenario F shape, used to refute the
unconditional idempotence claim. -/
def exMappingF : List (String × Option String) := [("p", some "q"), ("r", some "p")]

/-- Catalog on which `exMappingF` is not idempotent. -/
def exCatalogF : Catalog :=
  [("p", ⟨some (toL "one"), []⟩), ("r", ⟨some (toL "two"), []⟩)]

/-- Counterexample to C4 as stated: for the chained mapping
`{"p": "q", "r": "p"}` the first application moves `r`'s content onto the
old key `p`, so the second application deletes it — the merge is not
idempotent for every MergeMapping. -/
theorem C4_counterexample_chained :
    ¬ merge_language_files_catalog "en" exMappingF
        (merge_language_files_catalog "en" exMappingF exCatalogF)
      = merge_language_files_catalog "en" exMappingF exCatalogF := by
  decide

/-! ## Claim C10: the merge unconditionally inserts the two built-in keys -/

theorem dictGet?_addOneKey_self_of_absent (lang : String) (msgs : Catalog)
    (kv : String × List (String × MessageEntry)) {e : MessageEntry}
    (habs : dictContains msgs kv.1 = false) (ho : dictGet? kv.2 lang = some e) :
    dictGet? (addOneKey lang msgs kv) kv.1 = some e := by
  unfold addOneKey
  rw [habs, ho]
  simp only [if_true]
  exact dictGet?_set_self msgs kv.1 e

/-- **C10**.  For the languages `en` and `zh_CN`, the catalog produced by
`merge_language_files` always contains `common_model` and
`common_send_message`; whenever such a key is absent after the
mapping-derived operations, it is inserted with the fixed built-in text of
the `new_keys` table. -/
theorem C10_merge_inserts_builtin_keys (lang : String)
    (m : List (String × Option String)) (c : Catalog)
    (hlang : lang = "en" ∨ lang = "zh_CN") :
    dictContains (merge_language_files_catalog lang m c) "common_model" = true
    ∧ dictContains (merge_language_files_catalog lang m c) "common_send_message" = true
    ∧ (dictContains (applyMapping m c) "common_model" = false →
        dictGet? (merge_language_files_catalog lang m c) "common_model"
          = some (if lang = "en" then ⟨some (toL "Model"), []⟩
                  else ⟨some zhModelText, []⟩))
    ∧ (dictContains (applyMapping m c) "common_send_message" = false →
        dictGet? (merge_language_files_catalog lang m c) "common_send_message"
          = some (if lang = "en" then ⟨some (toL "Send message"), []⟩
                  else ⟨some zhSendText, []⟩)) := by
  have hoM : dictGet? nkModel.2 lang
      = some (if lang = "en" then ⟨some (toL "Model"), []⟩
              else ⟨some zhModelText, []⟩) := by
    rcases hlang with h | h <;> subst h <;> rfl
  have hoS : dictGet? nkSend.2 lang
      = some (if lang = "en" then ⟨some (toL "Send message"), []⟩
              else ⟨some zhSendText, []⟩) := by
    rcases hlang with h | h <;> subst h <;> rfl
  unfold merge_language_files_catalog
  set r0 := applyMapping m c with hr0
  constructor
  · show dictContains (addNewKeys lang r0) nkModel.1 = true
    rw [addNewKeys_eq, contains_addOneKey_ne lang _ _ (Ne.symm nkSend_fst_ne_nkModel_fst)]
    exact contains_addOneKey_self_of_some lang r0 nkModel hoM
  constructor
  · show dictContains (addNewKeys lang r0) nkSend.1 = true
    rw [addNewKeys_eq]
    exact contains_addOneKey_self_of_some lang _ nkSend hoS
  constructor
  · intro habs
    show dictGet? (addNewKeys lang r0) nkModel.1 = _
    rw [addNewKeys_eq,
      dictGet?_addOneKey_ne lang _ _ (Ne.symm nkSend_fst_ne_nkModel_fst)]
    have habs0 : dictContains r0 nkModel.1 = false := habs
    exact dictGet?_addOneKey_self_of_absent lang r0 nkModel habs0 hoM
  · intro habs
    show dictGet? (addNewKeys lang r0) nkSend.1 = _
    rw [addNewKeys_eq]
    have habs' : dictContains (addOneKey lang r0 nkModel) nkSend.1 = false := by
      rw [contains_addOneKey_ne lang _ _ nkSend_fst_ne_nkModel_fst]
      exact habs
    exact dictGet?_addOneKey_self_of_absent lang _ nkSend habs' hoS

/-- Witness for `C10_merge_inserts_builtin_keys`: the built-in mapping
applied to an empty catalog for `en`. -/
theorem C10_merge_inserts_builtin_keys_witness :
    ("en" = "en" ∨ "en" = "zh_CN")
    ∧ dictContains (merge_language_files_catalog "en" merge_mapping []) "common_model" = true
    ∧ dictContains (merge_language_files_catalog "en" merge_mapping []) "common_send_message" = true :=
  ⟨Or.inl rfl,
    (C10_merge_inserts_builtin_keys "en" merge_mapping [] (Or.inl rfl)).1,
    (C10_merge_inserts_builtin_keys "en" merge_mapping [] (Or.inl rfl)).2.1⟩

/-! ## Claim C2: the reconciler's set algebra
(`I18nManager.find_missing_keys` / `find_unused_keys`) -/

/-- `missing = code_keys - lang_keys` (i18n_manager.py line 160), for one
language's catalog key set. -/
def find_missing_keys (codeKeys catalogKeys : Finset String) : Finset String :=
  codeKeys \ catalogKeys

/-- `unused = lang_keys - code_keys` (i18n_manager.py line 189). -/
def find_unused_keys (codeKeys catalogKeys : Finset String) : Finset String :=
  catalogKeys \ codeKeys

/-- **C2**.  The reconciler computes `missing = R − C` and `unused = C − R`;
on catalog keys `{x, y}` and referenced keys `{x, z}` it reports
`missing = {z}` and `unused = {y}`; and for every input the two sets are
disjoint. -/
theorem C2_reconciler_sets :
    (∀ (r c : Finset String) (k : String),
        (k ∈ find_missing_keys r c ↔ k ∈ r ∧ k ∉ c)
        ∧ (k ∈ find_unused_keys r c ↔ k ∈ c ∧ k ∉ r))
    ∧ find_missing_keys {"x", "z"} {"x", "y"} = {"z"}
    ∧ find_unused_keys {"x", "z"} {"x", "y"} = {"y"}
    ∧ ∀ (r c : Finset String), Disjoint (find_missing_keys r c) (find_unused_keys r c) := by
  refine ⟨?_, ?_, ?_, ?_⟩
  · intro r c k
    constructor <;> simp [find_missing_keys, find_unused_keys, Finset.mem_sdiff]
  · decide
  · decide
  · intro r c
    rw [Finset.disjoint_left]
    intro k hk hk'
    simp only [find_missing_keys, Finset.mem_sdiff] at hk
    simp only [find_unused_keys, Finset.mem_sdiff] at hk'
    exact hk.2 hk'.1

/-! ## Claim C3: duplicate-text clustering
(`I18nManager.find_duplicate_text_keys`) -/

/-- The trimmed message text that `find_duplicate_text_keys` groups by
(i18n_manager.py lines 258-261): defined only when the value is an object
with a `message` field whose stripped text is nonempty. -/
def trimText? (v : MessageEntry) : Option (List Char) :=
  match v.message? with
  | none => none
  | some m => if pyStrip m = [] then none else some (pyStrip m)

/-- The loop body of the grouping phase:
`if message_text not in text_to_keys: text_to_keys[message_text] = []`
followed by `text_to_keys[message_text].append(key)`. -/
def groupInsert (g : List (List Char × List String)) (t : List Char) (k : String) :
    List (List Char × List String) :=
  let g1 := if dictContains g t = false then dictSet g t [] else g
  match dictGet? g1 t with
  | some ks => dictSet g1 t (ks ++ [k])
  | none => g1

/-- One iteration of the grouping loop `for key, value in messages.items()`
(lines 258-264): entries without a usable nonempty trimmed text are
skipped, the rest are appended to their text's group. -/
def dupStep (g : List (List Char × List String)) (kv : String × MessageEntry) :
    List (List Char × List String) :=
  match trimText? kv.2 with
  | some t => groupInsert g t kv.1
  | none => g

/-- The `text_to_keys` dict built by `find_duplicate_text_keys` (lines
257-264): keys grouped by trimmed message text, in catalog order. -/
def text_to_keys (c : Catalog) : List (List Char × List String) :=
  c.foldl dupStep []

/-- `find_duplicate_text_keys` for one language (lines 266-267): only the
groups with more than one key are kept. -/
def find_duplicate_text_keys (c : Catalog) : List (List Char × List String) :=
  (text_to_keys c).filter (fun p => p.2.length > 1)

/-- All catalog keys whose trimmed message text is `t`, in catalog order;
the reference value a group's key list is proved equal to. -/
def keysWithText (c : Catalog) (t : List Char) : List String :=
  c.filterMap (fun kv =>
    match trimText? kv.2 with
    | some t' => if t' = t then some kv.1 else none
    | none => none)

theorem dictContains_iff_mem_map_fst (g : List (κ × α)) (k : κ) :
    dictContains g k = true ↔ k ∈ g.map Prod.fst := by
  induction g with
  | nil => simp [dictContains]
  | cons p g ih =>
    simp only [dictContains, Bool.or_eq_true, beq_iff_eq, List.map_cons,
      List.mem_cons, ih]
    constructor
    · rintro (h | h)
      · exact Or.inl h.symm
      · exact Or.inr h
    · rintro (h | h)
      · exact Or.inl h.symm
      · exact Or.inr h

theorem map_fst_dictSet_of_contains (g : List (κ × α)) (k : κ) (v : α)
    (h : dictContains g k = true) :
    (dictSet g k v).map Prod.fst = g.map Prod.fst := by
  unfold dictSet
  rw [h]
  simp only [if_true, List.map_map]
  refine List.map_congr_left ?_
  intro p _
  by_cases hp : p.1 = k <;> simp [hp]

theorem map_fst_dictSet_of_absent (g : List (κ × α)) (k : κ) (v : α)
    (h : dictContains g k = false) :
    (dictSet g k v).map Prod.fst = g.map Prod.fst ++ [k] := by
  unfold dictSet
  rw [h]
  simp

/-- `groupInsert` unfolded, absent-text case. -/
theorem groupInsert_of_absent (g : List (List Char × List String))
    (t : List Char) (k : String) (hc : dictContains g t = false) :
    groupInsert g t k = dictSet (dictSet g t []) t [k] := by
  unfold groupInsert
  dsimp only []
  rw [if_pos hc, dictGet?_set_self g t []]
  rfl

/-- `groupInsert` unfolded, present-text case. -/
theorem groupInsert_of_contains (g : List (List Char × List String))
    (t : List Char) (k : String) {ks : List String} (hks : dictGet? g t = some ks) :
    groupInsert g t k = dictSet g t (ks ++ [k]) := by
  unfold groupInsert
  dsimp only []
  have hc : ¬ dictContains g t = false := by
    have := dictGet?_isSome_iff_contains g t
    rw [hks] at this
    simp [← this]
  rw [if_neg hc, hks]

/-- `groupInsert` never changes the set of group texts except by appending
a fresh one, so the texts stay pairwise distinct. -/
theorem nodup_map_fst_groupInsert (g : List (List Char × List String))
    (t : List Char) (k : String) (h : (g.map Prod.fst).Nodup) :
    ((groupInsert g t k).map Prod.fst).Nodup := by
  by_cases hc : dictContains g t = false
  · rw [groupInsert_of_absent g t k hc]
    have hcontains : dictContains (dictSet g t ([] : List String)) t = true :=
      dictContains_set_self g t []
    rw [map_fst_dictSet_of_contains _ t _ hcontains,
      map_fst_dictSet_of_absent g t [] hc]
    refine List.Nodup.append h (List.nodup_singleton t) ?_
    intro x hx hx'
    rcases List.mem_singleton.mp hx' with rfl
    rw [← dictContains_iff_mem_map_fst g x] at hx
    rw [hx] at hc
    cases hc
  · have hc' : dictContains g t = true := by simpa using hc
    obtain ⟨ks, hks⟩ : ∃ ks, dictGet? g t = some ks := by
      have := dictGet?_isSome_iff_contains g t
      rw [hc'] at this
      exact Option.isSome_iff_exists.mp this
    rw [groupInsert_of_contains g t k hks, map_fst_dictSet_of_contains _ t _ hc']
    exact h

theorem nodup_map_fst_text_to_keys (c : Catalog) :
    ((text_to_keys c).map Prod.fst).Nodup := by
  have haux : ∀ (c : Catalog) (g : List (List Char × List String)),
      (g.map Prod.fst).Nodup → ((c.foldl dupStep g).map Prod.fst).Nodup := by
    intro c
    induction c with
    | nil => intro g h; exact h
    | cons kv c ih =>
      intro g h
      show ((c.foldl dupStep (dupStep g kv)).map Prod.fst).Nodup
      refine ih (dupStep g kv) ?_
      unfold dupStep
      cases trimText? kv.2 with
      | none => exact h
      | some t => exact nodup_map_fst_groupInsert g t kv.1 h
  exact haux c [] List.nodup_nil

theorem dictGet?_groupInsert_self (g : List (List Char × List String))
    (t : List Char) (k : String) :
    dictGet? (groupInsert g t k) t = some ((dictGet? g t).getD [] ++ [k]) := by
  by_cases hc : dictContains g t = false
  · rw [groupInsert_of_absent g t k hc, dictGet?_set_self,
      dictGet?_eq_none_of_not_contains g hc]
    rfl
  · have hc' : dictContains g t = true := by simpa using hc
    obtain ⟨ks, hks⟩ : ∃ ks, dictGet? g t = some ks := by
      have := dictGet?_isSome_iff_contains g t
      rw [hc'] at this
      exact Option.isSome_iff_exists.mp this
    rw [groupInsert_of_contains g t k hks, dictGet?_set_self, hks]
    rfl

theorem dictGet?_groupInsert_ne (g : List (List Char × List String))
    {t t' : List Char} (k : String) (h : t' ≠ t) :
    dictGet? (groupInsert g t k) t' = dictGet? g t' := by
  by_cases hc : dictContains g t = false
  · rw [groupInsert_of_absent g t k hc, dictGet?_set_ne _ _ h, dictGet?_set_ne g _ h]
  · have hc' : dictContains g t = true := by simpa using hc
    obtain ⟨ks, hks⟩ : ∃ ks, dictGet? g t = some ks := by
      have := dictGet?_isSome_iff_contains g t
      rw [hc'] at this
      exact Option.isSome_iff_exists.mp this
    rw [groupInsert_of_contains g t k hks, dictGet?_set_ne g _ h]

theorem keysWithText_cons (kv : String × MessageEntry) (c : Catalog) (t : List Char) :
    keysWithText (kv :: c) t =
      match trimText? kv.2 with
      | some t' => if t' = t then kv.1 :: keysWithText c t else keysWithText c t
      | none => keysWithText c t := by
  unfold keysWithText
  rw [List.filterMap_cons]
  cases htt : trimText? kv.2 with
  | none => rfl
  | some t' =>
    by_cases het : t' = t
    · simp [het]
    · simp [het]

/-- Once a text group exists, the rest of the fold only appends to it the
keys whose trimmed text is that group's text, in order. -/
theorem foldl_dupStep_get_some (c : Catalog) (g : List (List Char × List String))
    (t : List Char) (ks : List String) (h : dictGet? g t = some ks) :
    dictGet? (c.foldl dupStep g) t = some (ks ++ keysWithText c t) := by
  induction c generalizing g ks with
  | nil => simpa [keysWithText] using h
  | cons kv c ih =>
    show dictGet? (c.foldl dupStep (dupStep g kv)) t = _
    rw [keysWithText_cons]
    cases htt : trimText? kv.2 with
    | none =>
      have hds : dupStep g kv = g := by unfold dupStep; rw [htt]
      rw [hds]
      exact ih g ks h
    | some t' =>
      have hds : dupStep g kv = groupInsert g t' kv.1 := by unfold dupStep; rw [htt]
      rw [hds]
      by_cases het : t' = t
      · subst het
        have hstep : dictGet? (groupInsert g t' kv.1) t' = some (ks ++ [kv.1]) := by
          rw [dictGet?_groupInsert_self, h]
          rfl
        rw [ih _ _ hstep]
        simp
      · have hstep : dictGet? (groupInsert g t' kv.1) t = dictGet? g t :=
          dictGet?_groupInsert_ne g kv.1 (fun hh => het hh.symm)
        rw [ih _ ks (hstep.trans h)]
        simp [het]

/-- Full characterization of a text's group after the grouping fold,
starting from the empty accumulator: it is exactly `keysWithText`. -/
theorem foldl_dupStep_get_none (c : Catalog) (g : List (List Char × List String))
    (t : List Char) (h : dictGet? g t = none) :
    dictGet? (c.foldl dupStep g) t =
      if keysWithText c t = [] then none else some (keysWithText c t) := by
  induction c generalizing g with
  | nil => simpa [keysWithText] using h
  | cons kv c ih =>
    show dictGet? (c.foldl dupStep (dupStep g kv)) t = _
    rw [keysWithText_cons]
    cases htt : trimText? kv.2 with
    | none =>
      have hds : dupStep g kv = g := by unfold dupStep; rw [htt]
      rw [hds]
      exact ih g h
    | some t' =>
      have hds : dupStep g kv = groupInsert g t' kv.1 := by unfold dupStep; rw [htt]
      rw [hds]
      by_cases het : t' = t
      · subst het
        have hstep : dictGet? (groupInsert g t' kv.1) t' = some [kv.1] := by
          rw [dictGet?_groupInsert_self, h]
          rfl
        rw [foldl_dupStep_get_some c _ t' [kv.1] hstep]
        simp
      · have hstep : dictGet? (groupInsert g t' kv.1) t = dictGet? g t :=
          dictGet?_groupInsert_ne g kv.1 (fun hh => het hh.symm)
        rw [ih _ (hstep.trans h)]
        simp [het]

theorem dictGet?_text_to_keys (c : Catalog) (t : List Char) :
    dictGet? (text_to_keys c) t =
      if keysWithText c t = [] then none else some (keysWithText c t) :=
  foldl_dupStep_get_none c [] t rfl

theorem dictGet?_mem (g : List (κ × α)) {t : κ} {v : α}
    (h : dictGet? g t = some v) : (t, v) ∈ g := by
  induction g with
  | nil => cases h
  | cons p g ih =>
    by_cases hp : p.1 = t
    · rw [dictGet?, if_pos hp] at h
      have hv : p.2 = v := Option.some.inj h
      have hpv : p = (t, v) := by
        cases p
        dsimp only at hp hv
        rw [hp, hv]
      rw [← hpv]
      exact List.mem_cons_self p g
    · rw [dictGet?, if_neg hp] at h
      exact List.mem_cons_of_mem p (ih h)

theorem dictGet?_of_mem_nodup (g : List (κ × α)) {t : κ} {v : α}
    (hnd : (g.map Prod.fst).Nodup) (hm : (t, v) ∈ g) : dictGet? g t = some v := by
  induction g with
  | nil => cases hm
  | cons p g ih =>
    rcases List.mem_cons.mp hm with heq | hmem
    · rw [dictGet?, if_pos (by rw [← heq])]
      rw [← heq]
    · have hfst : t ∈ g.map Prod.fst := List.mem_map.mpr ⟨(t, v), hmem, rfl⟩
      have hp : p.1 ≠ t := by
        intro hh
        rw [List.map_cons, List.nodup_cons] at hnd
        exact hnd.1 (hh ▸ hfst)
      rw [dictGet?, if_neg hp]
      rw [List.map_cons, List.nodup_cons] at hnd
      exact ih hnd.2 hmem

theorem mem_keysWithText_iff (c : Catalog) (t : List Char) (k : String) :
    k ∈ keysWithText c t ↔ ∃ e, (k, e) ∈ c ∧ trimText? e = some t := by
  unfold keysWithText
  rw [List.mem_filterMap]
  constructor
  · rintro ⟨kv, hkv, hf⟩
    split at hf
    case _ t' htt =>
      split at hf
      case _ het =>
        have hk : kv.1 = k := Option.some.inj hf
        refine ⟨kv.2, ?_, ?_⟩
        · rw [← hk]
          exact hkv
        · rw [htt, het]
      case _ het => cases hf
    case _ htt => cases hf
  · rintro ⟨e, hm, htrim⟩
    refine ⟨(k, e), hm, ?_⟩
    show (match trimText? e with
      | some t' => if t' = t then some k else none
      | none => none) = some k
    rw [htrim]
    dsimp only
    rw [if_pos rfl]

theorem keysWithText_sublist (c : Catalog) (t : List Char) :
    List.Sublist (keysWithText c t) (c.map Prod.fst) := by
  induction c with
  | nil => simp [keysWithText]
  | cons kv c ih =>
    rw [keysWithText_cons, List.map_cons]
    cases htt : trimText? kv.2 with
    | none => exact ih.cons kv.1
    | some t' =>
      show (if t' = t then kv.1 :: keysWithText c t
        else keysWithText c t).Sublist (kv.1 :: c.map Prod.fst)
      by_cases het : t' = t
      · rw [if_pos het]
        exact ih.cons₂ kv.1
      · rw [if_neg het]
        exact ih.cons kv.1

theorem one_lt_length_of_two_mem {l : List String} {k1 k2 : String}
    (h1 : k1 ∈ l) (h2 : k2 ∈ l) (hne : k1 ≠ k2) : 1 < l.length := by
  match l with
  | [] => cases h1
  | [a] =>
    rcases List.mem_singleton.mp h1 with rfl
    rcases List.mem_singleton.mp h2 with rfl
    exact absurd rfl hne
  | a :: b :: l => simp [Nat.lt_add_of_pos_left]

theorem length_le_one_of_nodup_const {l : List String} {k : String}
    (hnd : l.Nodup) (hall : ∀ x ∈ l, x = k) : l.length ≤ 1 := by
  match l with
  | [] => simp
  | [a] => simp
  | a :: b :: l =>
    rw [List.nodup_cons] at hnd
    have ha : a = k := hall a (by simp)
    have hb : b = k := hall b (by simp)
    exact absurd (ha.trans hb.symm) (fun hh => hnd.1 (hh ▸ List.mem_cons_self b l))

theorem catalog_value_unique (c : Catalog) {k : String} {a b : MessageEntry}
    (hnd : (c.map Prod.fst).Nodup) (h1 : (k, a) ∈ c) (h2 : (k, b) ∈ c) : a = b := by
  have ha := dictGet?_of_mem_nodup c hnd h1
  have hb := dictGet?_of_mem_nodup c hnd h2
  rw [ha] at hb
  cases hb
  rfl

theorem trimText?_ne_nil {e : MessageEntry} {t : List Char}
    (h : trimText? e = some t) : t ≠ [] := by
  unfold trimText? at h
  split at h
  case _ => cases h
  case _ m hm =>
    split at h
    case _ => cases h
    case _ hs =>
      have ht : pyStrip m = t := Option.some.inj h
      rw [← ht]
      exact hs

/-- Each group of `text_to_keys` holds exactly the keys whose trimmed text
is the group's text, in catalog order. -/
theorem group_eq_keysWithText (c : Catalog) {t : List Char} {ks : List String}
    (h : (t, ks) ∈ text_to_keys c) :
    ks = keysWithText c t ∧ keysWithText c t ≠ [] := by
  have hget : dictGet? (text_to_keys c) t = some ks :=
    dictGet?_of_mem_nodup _ (nodup_map_fst_text_to_keys c) h
  rw [dictGet?_text_to_keys] at hget
  by_cases hne : keysWithText c t = []
  · rw [if_pos hne] at hget
    cases hget
  · rw [if_neg hne] at hget
    exact ⟨(Option.some.inj hget).symm, hne⟩

/-- **C3**.  Duplicate clustering:

* every reported cluster has at least two keys, a nonempty trimmed text,
  and consists only of catalog keys whose trimmed message text is exactly
  the cluster's text (so empty-message entries are excluded);
* any two distinct keys with the same nonempty trimmed text land in the
  same cluster;
* under the catalog invariant of unique keys, a key whose text no other
  key shares appears in no cluster. -/
theorem C3_duplicate_text_clustering :
    (∀ (c : Catalog) (t : List Char) (ks : List String),
        (t, ks) ∈ find_duplicate_text_keys c →
        1 < ks.length ∧ t ≠ [] ∧
          ∀ k ∈ ks, ∃ e, (k, e) ∈ c ∧ trimText? e = some t)
    ∧ (∀ (c : Catalog) (k1 k2 : String) (e1 e2 : MessageEntry) (t : List Char),
        (k1, e1) ∈ c → (k2, e2) ∈ c → k1 ≠ k2 →
        trimText? e1 = some t → trimText? e2 = some t →
        ∃ ks, (t, ks) ∈ find_duplicate_text_keys c ∧ k1 ∈ ks ∧ k2 ∈ ks)
    ∧ (∀ (c : Catalog) (k : String) (e : MessageEntry),
        (c.map Prod.fst).Nodup → (k, e) ∈ c →
        (∀ k' e', (k', e') ∈ c → trimText? e' = trimText? e → k' = k) →
        ∀ t ks, (t, ks) ∈ find_duplicate_text_keys c → k ∉ ks) := by
  refine ⟨?_, ?_, ?_⟩
  · intro c t ks h
    have hmem := List.mem_filter.mp h
    obtain ⟨hks, hne⟩ := group_eq_keysWithText c hmem.1
    refine ⟨by simpa using hmem.2, ?_, ?_⟩
    · obtain ⟨k, hk⟩ := List.exists_mem_of_ne_nil _ hne
      obtain ⟨e, _, htrim⟩ := (mem_keysWithText_iff c t k).mp hk
      exact trimText?_ne_nil htrim
    · rw [hks]
      intro k hk
      exact (mem_keysWithText_iff c t k).mp hk
  · intro c k1 k2 e1 e2 t h1 h2 hne ht1 ht2
    have hk1 : k1 ∈ keysWithText c t := (mem_keysWithText_iff c t k1).mpr ⟨e1, h1, ht1⟩
    have hk2 : k2 ∈ keysWithText c t := (mem_keysWithText_iff c t k2).mpr ⟨e2, h2, ht2⟩
    have hnonempty : keysWithText c t ≠ [] := by
      intro hh
      rw [hh] at hk1
      cases hk1
    have hget : dictGet? (text_to_keys c) t = some (keysWithText c t) := by
      rw [dictGet?_text_to_keys, if_neg hnonempty]
    have hmem : (t, keysWithText c t) ∈ text_to_keys c := dictGet?_mem _ hget
    refine ⟨keysWithText c t, ?_, hk1, hk2⟩
    refine List.mem_filter.mpr ⟨hmem, ?_⟩
    simpa using one_lt_length_of_two_mem hk1 hk2 hne
  · intro c k e hnd hm huniq t ks hdup hk
    have hmem := List.mem_filter.mp hdup
    obtain ⟨hks, _⟩ := group_eq_keysWithText c hmem.1
    rw [hks] at hk
    obtain ⟨ex, hmemx, htrimx⟩ := (mem_keysWithText_iff c t k).mp hk
    have hex : ex = e := catalog_value_unique c hnd hmemx hm
    have htre : trimText? e = some t := by rw [← hex]; exact htrimx
    have hall : ∀ x ∈ keysWithText c t, x = k := by
      intro x hx
      obtain ⟨ey, hmy, hty⟩ := (mem_keysWithText_iff c t x).mp hx
      exact huniq x ey hmy (hty.trans htre.symm)
    have hnd' : (keysWithText c t).Nodup :=
      List.Nodup.sublist (keysWithText_sublist c t) hnd
    have hle : (keysWithText c t).length ≤ 1 :=
      length_le_one_of_nodup_const hnd' hall
    have hgt : 1 < ks.length := by simpa using hmem.2
    rw [hks] at hgt
    exact absurd hgt (by omega)

/-- Sample catalog with a duplicated text, spec Scenario A. -/
def exCatalogC3 : Catalog :=
  [("a", ⟨some (toL "Cancel"), []⟩), ("b", ⟨some (toL "Cancel"), []⟩)]

/-- Witness for `C3_duplicate_text_clustering`: on Scenario A's catalog the
two keys sharing the text "Cancel" are clustered together. -/
theorem C3_duplicate_text_clustering_witness :
    (("a", (⟨some (toL "Cancel"), []⟩ : MessageEntry)) ∈ exCatalogC3)
    ∧ (("b", (⟨some (toL "Cancel"), []⟩ : MessageEntry)) ∈ exCatalogC3)
    ∧ ("a" : String) ≠ "b"
    ∧ trimText? ⟨some (toL "Cancel"), []⟩ = some (toL "Cancel")
    ∧ ∃ ks, (toL "Cancel", ks) ∈ find_duplicate_text_keys exCatalogC3
        ∧ "a" ∈ ks ∧ "b" ∈ ks :=
  ⟨by decide, by decide, by decide, by decide,
    C3_duplicate_text_clustering.2.1 exCatalogC3 "a" "b"
      ⟨some (toL "Cancel"), []⟩ ⟨some (toL "Cancel"), []⟩ (toL "Cancel")
      (by decide) (by decide) (by decide) (by decide) (by decide)⟩

/-! ## Deterministic scanners for the scripts' regular expressions

Every pattern in `i18n_patterns` (i18n_manager.py lines 44-63) and in the
lookup/replacement lists of `key_merger.py` (lines 195-204 and 265-274) is
of a shape where Python's leftmost-greedy matching is deterministic: each
greedy sub-expression (`\s*`, `\w*`, `[^'"]+`, `[^_]+`) is followed by a
character class disjoint from the repeated class, so the maximal munch is
the only candidate and no backtracking can succeed where it fails.  Each
pattern is therefore embedded as a deterministic scanner. -/

/-- A prefix scanner: given the text at the current position, either fail
or return (consumed characters, remaining characters). -/
abbrev PScan := List Char → Option (List Char × List Char)

/-- A case-insensitive literal, as `re.IGNORECASE` matches one. -/
def pLit : List Char → PScan
  | [], cs => some ([], cs)
  | _ :: _, [] => none
  | l :: ls, c :: cs =>
    if lowEq c l then (pLit ls cs).map (fun p => (c :: p.1, p.2)) else none

/-- A single character from the given set (`[...]` with no ranges). -/
def pCharIn (set : List Char) : PScan := fun cs =>
  match cs with
  | [] => none
  | c :: cs => if c ∈ set then some ([c], cs) else none

/-- Greedy `\s*`: always succeeds with the maximal whitespace run. -/
def pWs : PScan := fun cs => some (cs.takeWhile isSpaceCh, cs.dropWhile isSpaceCh)

/-- A nonempty greedy run of characters satisfying `p` (`X+` for a class
`X` whose follower is outside the class). -/
def pTakeWhile1 (p : Char → Bool) : PScan := fun cs =>
  let run := cs.takeWhile p
  if run = [] then none else some (run, cs.dropWhile p)

/-- Greedy nonempty `\w+`. -/
def pWordRun1 : PScan := pTakeWhile1 isWordCh

/-- Substring test: does `needle` occur contiguously inside `hay`? -/
def hasInfix (needle hay : List Char) : Bool :=
  hay.tails.any (fun t => needle.isPrefixOf t)

/-- `\w*[iI]18n\w*` followed by a non-word character: the whole maximal
word run, accepted iff it contains "i18n" case-insensitively. -/
def pI18nRun : PScan := fun cs =>
  let run := cs.takeWhile isWordCh
  if hasInfix (toL "i18n") (run.map Char.toLower) then
    some (run, cs.dropWhile isWordCh)
  else none

/-- Sequencing of two prefix scanners. -/
def pseq (a b : PScan) : PScan := fun cs =>
  (a cs).bind (fun p => (b p.2).map (fun q => (p.1 ++ q.1, q.2)))

/-- Result of one pattern match: the three capture-relevant spans (prefix
group, key group, suffix group) and the text after the match. -/
abbrev MRes := List Char × List Char × List Char × List Char

/-- Three-part pattern: group 1 (everything up to and including the opening
quote), group 2 (the key), group 3 (the rest of the match). -/
def chain3 (a b c : PScan) : List Char → Option MRes := fun cs =>
  (a cs).bind fun p =>
    (b p.2).bind fun q =>
      (c q.2).map fun s => (p.1, q.1, s.1, s.2)

/-- One compiled pattern: a left-context guard (for the lookbehind and the
word boundary of the bare `getMessage` pattern) plus the scanner itself. -/
structure Matcher where
  guard : Option Char → Bool
  core : List Char → Option MRes

/-- Run a matcher at a position whose previous character is `prev`. -/
def Matcher.run (m : Matcher) (prev : Option Char) (cs : List Char) : Option MRes :=
  if m.guard prev then m.core cs else none

/-- The previous-character value after skipping a match. -/
def matchLast (g1 g2 g3 : List Char) (prev : Option Char) : Option Char :=
  match (g1 ++ g2 ++ g3).getLast? with
  | some c => some c
  | none => prev

/-- `re.sub` for one pattern: scan left to right, on a match emit
group 1, the replacement key, group 3, and continue after the match. -/
def subFuel (m : Matcher) (nk : List Char) : Nat → Option Char → List Char → List Char
  | 0, _, cs => cs
  | _ + 1, _, [] => []
  | f + 1, prev, c :: cs =>
    match m.run prev (c :: cs) with
    | some (g1, g2, g3, rest) =>
      g1 ++ nk ++ g3 ++ subFuel m nk f (matchLast g1 g2 g3 prev) rest
    | none => c :: subFuel m nk f (some c) cs

/-- `re.sub(pattern, replacement, content)` for one three-group pattern
with replacement `\1<new>\3`. -/
def applySub (m : Matcher) (nk : List Char) (content : List Char) : List Char :=
  subFuel m nk content.length none content

/-- `re.findall` for one pattern: the list of key captures, left to right,
non-overlapping. -/
def findFuel (m : Matcher) : Nat → Option Char → List Char → List (List Char)
  | 0, _, _ => []
  | _ + 1, _, [] => []
  | f + 1, prev, c :: cs =>
    match m.run prev (c :: cs) with
    | some (g1, g2, g3, rest) => g2 :: findFuel m f (matchLast g1 g2 g3 prev) rest
    | none => findFuel m f (some c) cs

/-- `pattern.findall(content)`, capture list. -/
def findAllCaptures (m : Matcher) (content : List Char) : List (List Char) :=
  findFuel m content.length none content

/-! ### The concrete patterns -/

/-- `\(` -/
def pParen : PScan := pCharIn ['(']

/-- `['"]` -/
def pQuote : PScan := pCharIn [sQuote, dQuote]

/-- `=` -/
def pEq : PScan := pCharIn ['=']

/-- `[,\)]` -/
def pEnd : PScan := pCharIn [',', ')']

/-- `\s*\(\s*['"]` — the argument-opening tail shared by the call patterns. -/
def pCallOpen : PScan := pseq pWs (pseq pParen (pseq pWs pQuote))

/-- Group 1 of `i18n\.getMessage\s*\(\s*['"]...`. -/
def aCall1 : PScan := pseq (pLit (toL "i18n.getMessage")) pCallOpen

/-- Group 1 of `chrome\.i18n\.getMessage\s*\(\s*['"]...`. -/
def aCall2 : PScan := pseq (pLit (toL "chrome.i18n.getMessage")) pCallOpen

/-- Group 1 of `(?<!\.)\bgetMessage\s*\(\s*['"]...` (the two zero-width
assertions live in the matcher guard). -/
def aCall3 : PScan := pseq (pLit (toL "getMessage")) pCallOpen

/-- Group 1 of `\w*[iI]18n\w*\.getMessage\s*\(\s*['"]...`. -/
def aCall4 : PScan := pseq pI18nRun (pseq (pCharIn ['.']) aCall3)

/-- Group 3 `['"]\s*[,\)]` of the call patterns. -/
def cCallEnd : PScan := pseq pQuote (pseq pWs pEnd)

/-- Group 1 `name\s*=\s*['"]` of the three fixed attribute patterns. -/
def aAttr (name : String) : PScan :=
  pseq (pLit (toL name)) (pseq pWs (pseq pEq (pseq pWs pQuote)))

/-- Group 1 of the generic `data-i18n-\w+\s*=\s*['"]` pattern. -/
def aAttr8 : PScan :=
  pseq (pLit (toL "data-i18n-"))
    (pseq pWordRun1 (pseq pWs (pseq pEq (pseq pWs pQuote))))

/-- Trivial guard for patterns without zero-width assertions. -/
def noGuard : Option Char → Bool := fun _ => true

/-- `(?<!\.)\b` before `getMessage`: the previous character, when there is
one, must be neither a word character (the boundary) nor a dot. -/
def bareGuard : Option Char → Bool := fun prev =>
  match prev with
  | none => true
  | some c => !(isWordCh c) && !(c == '.')

/-- Build the matcher of a three-group pattern. -/
def mkM (g : Option Char → Bool) (a b c : PScan) : Matcher := ⟨g, chain3 a b c⟩

/-- The escaped old key as a case-insensitive literal (`re.escape` makes
the key a literal; `re.IGNORECASE` matches it in any case). -/
def keyLit (old : List Char) : PScan := pLit old

/-- The per-key patterns of `update_file_key_references` (key_merger.py
lines 265-274) and of `find_key_usage_in_files` (lines 195-204), in source
order. -/
def mergerMatchers (old : List Char) : List Matcher :=
  [mkM noGuard aCall1 (keyLit old) cCallEnd,
   mkM noGuard aCall2 (keyLit old) cCallEnd,
   mkM bareGuard aCall3 (keyLit old) cCallEnd,
   mkM noGuard aCall4 (keyLit old) cCallEnd,
   mkM noGuard (aAttr "data-i18n") (keyLit old) pQuote,
   mkM noGuard (aAttr "data-i18n-title") (keyLit old) pQuote,
   mkM noGuard (aAttr "data-i18n-placeholder") (keyLit old) pQuote,
   mkM noGuard aAttr8 (keyLit old) pQuote]

/-- The generic key capture `([^'\"]+)` of the manager's patterns. -/
def keyCap : PScan := pTakeWhile1 (fun c => !(c == sQuote) && !(c == dQuote))

/-- The `([^_]+)` capture of the `__MSG_<key>__` pattern. -/
def msgCap : PScan := pTakeWhile1 (fun c => !(c == '_'))

/-- The nine `i18n_patterns` of `I18nManager` (i18n_manager.py lines
44-63), in source order. -/
def managerMatchers : List Matcher :=
  [mkM noGuard aCall1 keyCap cCallEnd,
   mkM noGuard aCall2 keyCap cCallEnd,
   mkM bareGuard aCall3 keyCap cCallEnd,
   mkM noGuard aCall4 keyCap cCallEnd,
   mkM noGuard (aAttr "data-i18n") keyCap pQuote,
   mkM noGuard (aAttr "data-i18n-title") keyCap pQuote,
   mkM noGuard (aAttr "data-i18n-placeholder") keyCap pQuote,
   mkM noGuard aAttr8 keyCap pQuote,
   mkM noGuard (pLit (toL "__MSG_")) msgCap (pLit (toL "__"))]

/-! ## The source rewriter and extractor operations -/

/-- The content transformation of `update_file_key_references`
(key_merger.py lines 259-278): the eight `re.sub` passes chained in
source order, each substituting `\1<new>\3`. -/
def update_file_key_references (old nk content : List Char) : List Char :=
  (mergerMatchers old).foldl (fun c m => applySub m nk c) content

/-- Whether `update_file_key_references` rewrites the file: the guard
`if updated_content != content` (key_merger.py lines 280-282). -/
def updateFileWritten (old nk content : List Char) : Bool :=
  update_file_key_references old nk content != content

/-- `f.readlines()`: split into lines, each keeping its newline. -/
def splitFuel : Nat → List Char → List (List Char)
  | 0, cs => if cs = [] then [] else [cs]
  | _ + 1, [] => []
  | f + 1, cs =>
    match cs.dropWhile (fun c => !(c == '\n')) with
    | [] => [cs]
    | _ :: rest => (cs.takeWhile (fun c => !(c == '\n')) ++ ['\n']) :: splitFuel f rest

/-- The lines of an artifact, as `find_key_usage_in_files` reads them. -/
def splitLinesKeep (cs : List Char) : List (List Char) := splitFuel cs.length cs

/-- The lines of one artifact that `find_key_usage_in_files` (key_merger.py
lines 190-228) reports for a key: the lines on which at least one of the
eight per-key patterns has a `findall` hit. -/
def find_key_usage_lines (old content : List Char) : List (List Char) :=
  (splitLinesKeep content).filter
    (fun line => (mergerMatchers old).any (fun m => !(findAllCaptures m line).isEmpty))

/-- How `update_code_references` (key_merger.py lines 230-257) renders the
mapping target into the replacement string `rf'\1{new_key}\3'`: a Python
f-string renders the tombstone `None` as the literal text "None". -/
def renderTarget : Option (List Char) → List Char
  | some s => s
  | none => toL "None"

/-- The per-file effect of `update_code_references` for one mapping entry:
the file is rewritten only when the usage lookup finds the old key in it
(lines 238-254), and the replacement key is the rendered target. -/
def update_code_references_file (old : List Char) (target : Option (List Char))
    (content : List Char) : List Char :=
  if (find_key_usage_lines old content).isEmpty then content
  else update_file_key_references old (renderTarget target) content

/-- `found_keys.add(match)` guarded by `if match:` (i18n_manager.py lines
98-99), on a set modelled as a duplicate-free list in insertion order. -/
def addKey (keys : List (List Char)) (k : List Char) : List (List Char) :=
  if k = [] then keys else if k ∈ keys then keys else keys ++ [k]

/-- The per-content extraction loop of `scan_code_for_keys` (i18n_manager.py
lines 92-99): every pattern's `findall` captures added in order.  (All nine
patterns have exactly one group, so the tuple branch of line 95-97 never
fires.) -/
def extractInto (keys : List (List Char)) (content : List Char) : List (List Char) :=
  managerMatchers.foldl (fun ks m => (findAllCaptures m content).foldl addKey ks) keys

/-- Outcome of opening one source artifact: its text, or the
`UnicodeDecodeError` / `PermissionError` the `except` clause catches. -/
inductive ReadResult where
  | ok (content : List Char)
  | unreadable
deriving DecidableEq, Repr

/-- One enumerated source artifact. -/
structure Artifact where
  name : String
  result : ReadResult
deriving DecidableEq, Repr

/-- One iteration of the artifact loop of `scan_code_for_keys`
(i18n_manager.py lines 87-103): an unreadable artifact records a warning
and is skipped, a readable one contributes its keys. -/
def scanStep (acc : List (List Char) × List String) (a : Artifact) :
    List (List Char) × List String :=
  match a.result with
  | .ok content => (extractInto acc.1 content, acc.2)
  | .unreadable => (acc.1, acc.2 ++ [a.name])

/-- `scan_code_for_keys` over an abstract artifact enumeration: the found
key set (as an insertion-ordered duplicate-free list) and the warned-about
artifact names. -/
def scan_code_for_keys (arts : List Artifact) : List (List Char) × List String :=
  arts.foldl scanStep ([], [])

/-- The `scan_patterns` of `I18nKeyMerger.__init__` (key_merger.py lines
25-28): the rewriter enumerates only these globs; `.json` files are not
among them. -/
def scan_patterns_merger : List String := ["**/*.js", "**/*.html"]

/-- The fixed tail of a glob pattern: everything after its last `*`.  A
file name matched by the glob necessarily ends with this tail; this is the
(sound) abstraction of the collaborator-provided glob expansion. -/
def afterLastStar (pat : List Char) : List Char :=
  ((pat.reverse.takeWhile (fun c => !(c == '*'))).reverse)

/-- Necessary condition for a glob to match a file name. -/
def globNameCouldMatch (pat name : String) : Bool :=
  List.isPrefixOf (afterLastStar (toL pat)).reverse (toL name).reverse

/-- The `__MSG_<key>__` manifest placeholder form of a key. -/
def msgToken (k : List Char) : List Char := toL "__MSG_" ++ k ++ toL "__"

/-! ## Scanner soundness and character requirements -/

/-- A scanner whose output splits its input. -/
def Reconstructs (p : PScan) : Prop :=
  ∀ cs m r, p cs = some (m, r) → cs = m ++ r

theorem pLit_reconstructs (lit : List Char) : Reconstructs (pLit lit) := by
  induction lit with
  | nil =>
    intro cs m r h
    cases h
    rfl
  | cons l ls ih =>
    intro cs m r h
    cases cs with
    | nil => cases h
    | cons c cs =>
      rw [pLit] at h
      by_cases hl : lowEq c l = true
      · rw [if_pos hl] at h
        rcases Option.map_eq_some'.mp h with ⟨⟨m', r'⟩, hp, heq⟩
        cases heq
        rw [ih cs m' r' hp]
        rfl
      · rw [if_neg hl] at h
        cases h

theorem pCharIn_reconstructs (set : List Char) : Reconstructs (pCharIn set) := by
  intro cs m r h
  cases cs with
  | nil => cases h
  | cons c cs =>
    rw [pCharIn] at h
    by_cases hc : c ∈ set
    · rw [if_pos hc] at h
      cases h
      rfl
    · rw [if_neg hc] at h
      cases h

theorem pCharIn_eq (set : List Char) (cs m r : List Char)
    (h : pCharIn set cs = some (m, r)) : ∃ ch ∈ set, m = [ch] := by
  cases cs with
  | nil => cases h
  | cons c cs =>
    rw [pCharIn] at h
    by_cases hc : c ∈ set
    · rw [if_pos hc] at h
      cases h
      exact ⟨c, hc, rfl⟩
    · rw [if_neg hc] at h
      cases h

theorem pWs_reconstructs : Reconstructs pWs := by
  intro cs m r h
  cases h
  exact (List.takeWhile_append_dropWhile isSpaceCh cs).symm

theorem pTakeWhile1_reconstructs (p : Char → Bool) : Reconstructs (pTakeWhile1 p) := by
  intro cs m r h
  rw [pTakeWhile1] at h
  by_cases he : cs.takeWhile p = []
  · rw [if_pos he] at h
    cases h
  · rw [if_neg he] at h
    cases h
    exact (List.takeWhile_append_dropWhile p cs).symm

theorem pI18nRun_reconstructs : Reconstructs pI18nRun := by
  intro cs m r h
  rw [pI18nRun] at h
  by_cases hi : hasInfix (toL "i18n") ((cs.takeWhile isWordCh).map Char.toLower) = true
  · rw [if_pos hi] at h
    cases h
    exact (List.takeWhile_append_dropWhile isWordCh cs).symm
  · rw [if_neg hi] at h
    cases h

theorem pseq_parts (a b : PScan) (cs m r : List Char)
    (h : pseq a b cs = some (m, r)) :
    ∃ m1 r1 m2, a cs = some (m1, r1) ∧ b r1 = some (m2, r) ∧ m = m1 ++ m2 := by
  rw [pseq] at h
  rcases Option.bind_eq_some.mp h with ⟨p, ha, h2⟩
  rcases Option.map_eq_some'.mp h2 with ⟨q, hb, heq⟩
  cases heq
  exact ⟨p.1, p.2, q.1, ha, hb, rfl⟩

theorem pseq_reconstructs {a b : PScan} (ha : Reconstructs a) (hb : Reconstructs b) :
    Reconstructs (pseq a b) := by
  intro cs m r h
  obtain ⟨m1, r1, m2, h1, h2, hm⟩ := pseq_parts a b cs m r h
  rw [hm, ha cs m1 r1 h1, hb r1 m2 r h2, List.append_assoc]

theorem pCallOpen_reconstructs : Reconstructs pCallOpen :=
  pseq_reconstructs pWs_reconstructs
    (pseq_reconstructs (pCharIn_reconstructs _)
      (pseq_reconstructs pWs_reconstructs (pCharIn_reconstructs _)))

theorem aCall1_reconstructs : Reconstructs aCall1 :=
  pseq_reconstructs (pLit_reconstructs _) pCallOpen_reconstructs

theorem aCall2_reconstructs : Reconstructs aCall2 :=
  pseq_reconstructs (pLit_reconstructs _) pCallOpen_reconstructs

theorem aCall3_reconstructs : Reconstructs aCall3 :=
  pseq_reconstructs (pLit_reconstructs _) pCallOpen_reconstructs

theorem aCall4_reconstructs : Reconstructs aCall4 :=
  pseq_reconstructs pI18nRun_reconstructs
    (pseq_reconstructs (pCharIn_reconstructs _) aCall3_reconstructs)

theorem aAttr_reconstructs (name : String) : Reconstructs (aAttr name) :=
  pseq_reconstructs (pLit_reconstructs _)
    (pseq_reconstructs pWs_reconstructs
      (pseq_reconstructs (pCharIn_reconstructs _)
        (pseq_reconstructs pWs_reconstructs (pCharIn_reconstructs _))))

theorem aAttr8_reconstructs : Reconstructs aAttr8 :=
  pseq_reconstructs (pLit_reconstructs _)
    (pseq_reconstructs (pTakeWhile1_reconstructs _)
      (pseq_reconstructs pWs_reconstructs
        (pseq_reconstructs (pCharIn_reconstructs _)
          (pseq_reconstructs pWs_reconstructs (pCharIn_reconstructs _)))))

/-- Every call-pattern prefix consumes an opening parenthesis. -/
theorem pCallOpen_paren_mem (cs m r : List Char)
    (h : pCallOpen cs = some (m, r)) : '(' ∈ m := by
  obtain ⟨m1, r1, m2, _, h2, hm⟩ := pseq_parts _ _ cs m r h
  obtain ⟨m3, r3, m4, h3, _, hm2⟩ := pseq_parts _ _ r1 m2 r h2
  obtain ⟨ch, hch, hm3⟩ := pCharIn_eq _ r1 m3 r3 h3
  rcases List.mem_singleton.mp hch with rfl
  rw [hm, hm2, hm3]
  simp

theorem aCall1_paren_mem (cs m r : List Char)
    (h : aCall1 cs = some (m, r)) : '(' ∈ m := by
  obtain ⟨m1, r1, m2, _, h2, hm⟩ := pseq_parts _ _ cs m r h
  rw [hm]
  exact List.mem_append_right m1 (pCallOpen_paren_mem r1 m2 r h2)

theorem aCall2_paren_mem (cs m r : List Char)
    (h : aCall2 cs = some (m, r)) : '(' ∈ m := by
  obtain ⟨m1, r1, m2, _, h2, hm⟩ := pseq_parts _ _ cs m r h
  rw [hm]
  exact List.mem_append_right m1 (pCallOpen_paren_mem r1 m2 r h2)

theorem aCall3_paren_mem (cs m r : List Char)
    (h : aCall3 cs = some (m, r)) : '(' ∈ m := by
  obtain ⟨m1, r1, m2, _, h2, hm⟩ := pseq_parts _ _ cs m r h
  rw [hm]
  exact List.mem_append_right m1 (pCallOpen_paren_mem r1 m2 r h2)

theorem aCall4_paren_mem (cs m r : List Char)
    (h : aCall4 cs = some (m, r)) : '(' ∈ m := by
  obtain ⟨m1, r1, m2, _, h2, hm⟩ := pseq_parts _ _ cs m r h
  obtain ⟨m3, r3, m4, _, h4, hm2⟩ := pseq_parts _ _ r1 m2 r h2
  rw [hm, hm2]
  refine List.mem_append_right m1 ?_
  exact List.mem_append_right m3 (aCall3_paren_mem r3 m4 r h4)

/-- Every attribute-pattern prefix consumes an equals sign. -/
theorem aAttr_eq_mem (name : String) (cs m r : List Char)
    (h : aAttr name cs = some (m, r)) : '=' ∈ m := by
  obtain ⟨m1, r1, m2, _, h2, hm⟩ := pseq_parts _ _ cs m r h
  obtain ⟨m3, r3, m4, _, h4, hm2⟩ := pseq_parts _ _ r1 m2 r h2
  obtain ⟨m5, r5, m6, h5, _, hm4⟩ := pseq_parts _ _ r3 m4 r h4
  obtain ⟨ch, hch, hm5⟩ := pCharIn_eq _ r3 m5 r5 h5
  rcases List.mem_singleton.mp hch with rfl
  rw [hm, hm2, hm4, hm5]
  simp

theorem aAttr8_eq_mem (cs m r : List Char)
    (h : aAttr8 cs = some (m, r)) : '=' ∈ m := by
  obtain ⟨m1, r1, m2, _, h2, hm⟩ := pseq_parts _ _ cs m r h
  obtain ⟨m3, r3, m4, _, h4, hm2⟩ := pseq_parts _ _ r1 m2 r h2
  obtain ⟨m5, r5, m6, _, h6, hm4⟩ := pseq_parts _ _ r3 m4 r h4
  obtain ⟨m7, r7, m8, h7, _, hm6⟩ := pseq_parts _ _ r5 m6 r h6
  obtain ⟨ch, hch, hm7⟩ := pCharIn_eq _ r5 m7 r7 h7
  rcases List.mem_singleton.mp hch with rfl
  rw [hm, hm2, hm4, hm6, hm7]
  simp

theorem chain3_parts (a b c : PScan) (cs : List Char) (g1 g2 g3 rest : List Char)
    (h : chain3 a b c cs = some (g1, g2, g3, rest)) :
    ∃ r1 r2, a cs = some (g1, r1) ∧ b r1 = some (g2, r2) ∧ c r2 = some (g3, rest) := by
  rw [chain3] at h
  rcases Option.bind_eq_some.mp h with ⟨p, ha, h2⟩
  rcases Option.bind_eq_some.mp h2 with ⟨q, hb, h3⟩
  rcases Option.map_eq_some'.mp h3 with ⟨s, hc, heq⟩
  cases heq
  exact ⟨p.2, q.2, ha, hb, hc⟩

/-- If a three-group pattern matches, its first group's required character
occurs in the scanned text. -/
theorem mkM_char_mem {g : Option Char → Bool} {a b c : PScan} {ch : Char}
    (hmem : ∀ cs m r, a cs = some (m, r) → ch ∈ m)
    (hrec : Reconstructs a)
    (cs : List Char) (res : MRes) (h : (mkM g a b c).core cs = some res) : ch ∈ cs := by
  obtain ⟨g1, g2, g3, rest⟩ := res
  obtain ⟨r1, r2, h1, _, _⟩ := chain3_parts a b c cs g1 g2 g3 rest h
  rw [hrec cs g1 r1 h1]
  exact List.mem_append_left r1 (hmem cs g1 r1 h1)

/-! ## No-match behavior of the engines -/

theorem drop_mem_tails (cs : List Char) (n : Nat) : cs.drop n ∈ cs.tails := by
  induction cs generalizing n with
  | nil => simp [List.tails]
  | cons c cs ih =>
    cases n with
    | zero => simp [List.tails]
    | succ n =>
      rw [List.drop_succ_cons, List.tails]
      exact List.mem_cons_of_mem _ (ih n)

theorem Matcher.run_none {m : Matcher} {cs : List Char} (h : m.core cs = none)
    (prev : Option Char) : m.run prev cs = none := by
  rw [Matcher.run]
  split <;> simp [h]

/-- If a pattern matches at no position, its `re.sub` pass is the
identity. -/
theorem subFuel_id (m : Matcher) (nk : List Char) (cs : List Char)
    (h : ∀ n, m.core (cs.drop n) = none) :
    ∀ f prev, subFuel m nk f prev cs = cs := by
  induction cs with
  | nil =>
    intro f prev
    cases f <;> rfl
  | cons c cs ih =>
    intro f prev
    cases f with
    | zero => rfl
    | succ f =>
      have h0 : m.core (c :: cs) = none := h 0
      rw [subFuel, Matcher.run_none h0]
      rw [ih (fun n => h (n + 1)) f (some c)]

/-- If a pattern matches at no position, its `findall` is empty. -/
theorem findFuel_nil (m : Matcher) (cs : List Char)
    (h : ∀ n, m.core (cs.drop n) = none) :
    ∀ f prev, findFuel m f prev cs = [] := by
  induction cs with
  | nil =>
    intro f prev
    cases f <;> rfl
  | cons c cs ih =>
    intro f prev
    cases f with
    | zero => rfl
    | succ f =>
      have h0 : m.core (c :: cs) = none := h 0
      rw [findFuel, Matcher.run_none h0]
      exact ih (fun n => h (n + 1)) f (some c)

theorem applySub_id (m : Matcher) (nk : List Char) (cs : List Char)
    (h : ∀ n, m.core (cs.drop n) = none) : applySub m nk cs = cs :=
  subFuel_id m nk cs h cs.length none

theorem findAllCaptures_nil (m : Matcher) (cs : List Char)
    (h : ∀ n, m.core (cs.drop n) = none) : findAllCaptures m cs = [] :=
  findFuel_nil m cs h cs.length none

/-- The eight per-key patterns each require a parenthesis or an equals
sign somewhere in the text they match. -/
theorem mergerMatchers_core_none (old content : List Char)
    (hp : '(' ∉ content) (he : '=' ∉ content) :
    ∀ m ∈ mergerMatchers old, m.core content = none := by
  intro m hm
  cases hcore : m.core content with
  | none => rfl
  | some res =>
    exfalso
    rw [mergerMatchers] at hm
    simp only [List.mem_cons, List.not_mem_nil, or_false] at hm
    rcases hm with rfl | rfl | rfl | rfl | rfl | rfl | rfl | rfl
    · exact hp (mkM_char_mem aCall1_paren_mem aCall1_reconstructs content res hcore)
    · exact hp (mkM_char_mem aCall2_paren_mem aCall2_reconstructs content res hcore)
    · exact hp (mkM_char_mem aCall3_paren_mem aCall3_reconstructs content res hcore)
    · exact hp (mkM_char_mem aCall4_paren_mem aCall4_reconstructs content res hcore)
    · exact he (mkM_char_mem (aAttr_eq_mem "data-i18n") (aAttr_reconstructs _) content res hcore)
    · exact he (mkM_char_mem (aAttr_eq_mem "data-i18n-title") (aAttr_reconstructs _) content res hcore)
    · exact he (mkM_char_mem (aAttr_eq_mem "data-i18n-placeholder") (aAttr_reconstructs _) content res hcore)
    · exact he (mkM_char_mem aAttr8_eq_mem aAttr8_reconstructs content res hcore)

theorem pLit_refl (lit rest : List Char) : pLit lit (lit ++ rest) = some (lit, rest) := by
  induction lit with
  | nil => rfl
  | cons c lit ih =>
    rw [List.cons_append, pLit, if_pos (by simp [lowEq]), ih]
    rfl

theorem takeWhile_append_all (p : Char → Bool) (k : List Char) (d : Char) (ds : List Char)
    (hall : ∀ c ∈ k, p c = true) (hd : p d = false) :
    (k ++ d :: ds).takeWhile p = k ∧ (k ++ d :: ds).dropWhile p = d :: ds := by
  induction k with
  | nil => simp [List.takeWhile_cons, List.dropWhile_cons, hd]
  | cons c k ih =>
    have hc : p c = true := hall c (List.mem_cons_self c k)
    have ih' := ih (fun c hc => hall c (List.mem_cons_of_mem _ hc))
    simp [List.takeWhile_cons, List.dropWhile_cons, hc, ih'.1, ih'.2]

theorem msgCap_exact (k : List Char) (hk : k ≠ []) (hnu : ∀ c ∈ k, c ≠ '_') :
    msgCap (k ++ toL "__") = some (k, toL "__") := by
  have hall : ∀ c ∈ k, (!(c == '_')) = true := by
    intro c hc
    simp [hnu c hc]
  have hd : (!(('_' : Char) == '_')) = false := by decide
  have h := takeWhile_append_all (fun c => !(c == '_')) k '_' ['_'] hall hd
  rw [show ('_' :: ['_'] : List Char) = toL "__" from rfl] at h
  rw [msgCap, pTakeWhile1, h.1, h.2, if_neg hk]

theorem findFuel_empty_input (m : Matcher) : ∀ f prev, findFuel m f prev [] = [] := by
  intro f prev
  cases f <;> rfl

/-- A text consisting of exactly one match yields exactly its capture. -/
theorem findAllCaptures_single (m : Matcher) (c : Char) (cs : List Char)
    (g1 g2 g3 : List Char)
    (h : m.run none (c :: cs) = some (g1, g2, g3, [])) :
    findAllCaptures m (c :: cs) = [g2] := by
  show findFuel m (c :: cs).length none (c :: cs) = [g2]
  rw [List.length_cons, findFuel, h]
  show g2 :: findFuel m cs.length (matchLast g1 g2 g3 none) [] = [g2]
  rw [findFuel_empty_input]

/-- The `__MSG_` pattern on the placeholder form of an underscore-free
nonempty key captures exactly that key. -/
theorem findAll_msg (k : List Char) (hk : k ≠ []) (hnu : ∀ c ∈ k, c ≠ '_') :
    findAllCaptures (mkM noGuard (pLit (toL "__MSG_")) msgCap (pLit (toL "__")))
      (msgToken k) = [k] := by
  have hcore : (mkM noGuard (pLit (toL "__MSG_")) msgCap (pLit (toL "__"))).core
      (msgToken k) = some (toL "__MSG_", k, toL "__", []) := by
    show chain3 (pLit (toL "__MSG_")) msgCap (pLit (toL "__")) (msgToken k)
      = some (toL "__MSG_", k, toL "__", [])
    rw [chain3]
    have h1 : pLit (toL "__MSG_") (msgToken k) = some (toL "__MSG_", k ++ toL "__") := by
      rw [msgToken, List.append_assoc]
      exact pLit_refl (toL "__MSG_") (k ++ toL "__")
    have h3 : pLit (toL "__") (toL "__") = some (toL "__", []) := by
      have := pLit_refl (toL "__") []
      rwa [List.append_nil] at this
    rw [h1, Option.some_bind, msgCap_exact k hk hnu, Option.some_bind, h3]
    rfl
  have hshape : msgToken k = '_' :: (toL "_MSG_" ++ (k ++ toL "__")) := by
    rw [msgToken, List.append_assoc]
    rfl
  have hrun : (mkM noGuard (pLit (toL "__MSG_")) msgCap (pLit (toL "__"))).run none
      (msgToken k) = some (toL "__MSG_", k, toL "__", []) := by
    rw [Matcher.run, if_pos (show (mkM noGuard (pLit (toL "__MSG_")) msgCap
      (pLit (toL "__"))).guard none = true from rfl)]
    exact hcore
  rw [hshape] at hrun ⊢
  exact findAllCaptures_single _ _ _ _ _ _ hrun

theorem splitFuel_mem (f : Nat) (cs line : List Char) (ch : Char)
    (hl : line ∈ splitFuel f cs) (hc : ch ∈ line) : ch ∈ cs ∨ ch = '\n' := by
  induction f generalizing cs with
  | zero =>
    rw [splitFuel] at hl
    by_cases he : cs = []
    · rw [if_pos he] at hl
      cases hl
    · rw [if_neg he] at hl
      rcases List.mem_singleton.mp hl with rfl
      exact Or.inl hc
  | succ f ih =>
    cases cs with
    | nil => cases hl
    | cons c cs0 =>
      rw [splitFuel] at hl
      split at hl
      case _ heq =>
        rcases List.mem_singleton.mp hl with rfl
        exact Or.inl hc
      case _ d rest heq =>
        rcases List.mem_cons.mp hl with rfl | hmem
        · rcases List.mem_append.mp hc with hc' | hc'
          · exact Or.inl (List.Sublist.subset (List.takeWhile_sublist _) hc')
          · exact Or.inr (List.mem_singleton.mp hc')
        · rcases ih rest hmem with hin | hnl
          · refine Or.inl ?_
            have hsub : rest ⊆ (c :: cs0) := by
              intro x hx
              have : x ∈ d :: rest := List.mem_cons_of_mem d hx
              rw [← heq] at this
              exact List.Sublist.subset (List.dropWhile_sublist _) this
            exact hsub hin
          · exact Or.inr hnl
      case _ =>
        intro hfalse
        exact (List.cons_ne_nil c cs0) hfalse

/-- Chars of any reported line occur in the artifact (or are the added
newline). -/
theorem mem_of_mem_splitLinesKeep (cs line : List Char) (ch : Char)
    (hl : line ∈ splitLinesKeep cs) (hc : ch ∈ line) : ch ∈ cs ∨ ch = '\n' :=
  splitFuel_mem cs.length cs line ch hl hc

/-- The eight chained `re.sub` passes do nothing when none of the patterns
matches anywhere. -/
theorem foldl_applySub_id (ms : List Matcher) (nk content : List Char)
    (h : ∀ m ∈ ms, ∀ n, m.core (content.drop n) = none) :
    ms.foldl (fun c m => applySub m nk c) content = content := by
  induction ms with
  | nil => rfl
  | cons m ms ih =>
    show ms.foldl (fun c m => applySub m nk c) (applySub m nk content) = content
    rw [applySub_id m nk content (h m (List.mem_cons_self m ms))]
    exact ih (fun m' hm' => h m' (List.mem_cons_of_mem m hm'))

/-- Decidable form of "no per-key pattern matches anywhere in the
artifact". -/
def noPatternMatch (old content : List Char) : Bool :=
  content.tails.all (fun t => (mergerMatchers old).all (fun m => (m.core t).isNone))

theorem noPatternMatch_spec (old content : List Char)
    (h : noPatternMatch old content = true) :
    ∀ m ∈ mergerMatchers old, ∀ n, m.core (content.drop n) = none := by
  intro m hm n
  have ht := (List.all_eq_true.mp h) (content.drop n) (drop_mem_tails content n)
  have hmm := (List.all_eq_true.mp ht) m hm
  exact Option.isNone_iff_eq_none.mp hmm

/-! ## Claim C5: the `__MSG_<key>__` placeholder pattern -/

/-- **C5** (amended).  For every nonempty key made of word characters
*other than the underscore*, the extractor yields the key from its
manifest placeholder form.  (The pattern's capture is `[^_]+`, so keys
containing an underscore — the project's usual key shape — are *not*
recognized; see the counterexample.) -/
theorem C5_msg_placeholder_extraction (k : List Char) (hk : k ≠ [])
    (hw : ∀ c ∈ k, isWordCh c = true) (hnu : ∀ c ∈ k, c ≠ '_') :
    extractInto [] (msgToken k) = [k] := by
  have hnotin : ∀ ch : Char, isWordCh ch = false → ch ∉ msgToken k := by
    intro ch hch hmem
    rw [msgToken] at hmem
    rcases List.mem_append.mp hmem with h1 | h2
    · rcases List.mem_append.mp h1 with h1 | h1
      · have hall : (toL "__MSG_").all isWordCh = true := by decide
        have := (List.all_eq_true.mp hall) ch h1
        rw [hch] at this
        cases this
      · have := hw ch h1
        rw [hch] at this
        cases this
    · have hall : (toL "__").all isWordCh = true := by decide
      have := (List.all_eq_true.mp hall) ch h2
      rw [hch] at this
      cases this
  have hp : '(' ∉ msgToken k := hnotin '(' (by decide)
  have he : '=' ∉ msgToken k := hnotin '=' (by decide)
  have hskip : ∀ (m : Matcher),
      (∀ cs res, m.core cs = some res → ('(' ∈ cs ∨ '=' ∈ cs)) →
      findAllCaptures m (msgToken k) = [] := by
    intro m hchar
    refine findAllCaptures_nil m _ (fun n => ?_)
    cases hcore : m.core ((msgToken k).drop n) with
    | none => rfl
    | some res =>
      exfalso
      rcases hchar _ res hcore with hmem | hmem
      · exact hp (List.drop_subset n (msgToken k) hmem)
      · exact he (List.drop_subset n (msgToken k) hmem)
  rw [extractInto, managerMatchers]
  simp only [List.foldl_cons, List.foldl_nil]
  rw [hskip (mkM noGuard aCall1 keyCap cCallEnd)
      (fun cs res h => Or.inl (mkM_char_mem aCall1_paren_mem aCall1_reconstructs cs res h)),
    hskip (mkM noGuard aCall2 keyCap cCallEnd)
      (fun cs res h => Or.inl (mkM_char_mem aCall2_paren_mem aCall2_reconstructs cs res h)),
    hskip (mkM bareGuard aCall3 keyCap cCallEnd)
      (fun cs res h => Or.inl (mkM_char_mem aCall3_paren_mem aCall3_reconstructs cs res h)),
    hskip (mkM noGuard aCall4 keyCap cCallEnd)
      (fun cs res h => Or.inl (mkM_char_mem aCall4_paren_mem aCall4_reconstructs cs res h)),
    hskip (mkM noGuard (aAttr "data-i18n") keyCap pQuote)
      (fun cs res h => Or.inr (mkM_char_mem (aAttr_eq_mem "data-i18n") (aAttr_reconstructs _) cs res h)),
    hskip (mkM noGuard (aAttr "data-i18n-title") keyCap pQuote)
      (fun cs res h => Or.inr (mkM_char_mem (aAttr_eq_mem "data-i18n-title") (aAttr_reconstructs _) cs res h)),
    hskip (mkM noGuard (aAttr "data-i18n-placeholder") keyCap pQuote)
      (fun cs res h => Or.inr (mkM_char_mem (aAttr_eq_mem "data-i18n-placeholder") (aAttr_reconstructs _) cs res h)),
    hskip (mkM noGuard aAttr8 keyCap pQuote)
      (fun cs res h => Or.inr (mkM_char_mem aAttr8_eq_mem aAttr8_reconstructs cs res h)),
    findAll_msg k hk hnu]
  simp only [List.foldl_nil, List.foldl_cons]
  rw [addKey, if_neg hk, if_neg (List.not_mem_nil k)]
  rfl

/-- Witness for `C5_msg_placeholder_extraction` at the key "abc". -/
theorem C5_msg_placeholder_extraction_witness :
    (toL "abc" ≠ [] ∧ (∀ c ∈ toL "abc", isWordCh c = true)
      ∧ (∀ c ∈ toL "abc", c ≠ '_'))
    ∧ extractInto [] (msgToken (toL "abc")) = [toL "abc"] :=
  ⟨⟨by decide, by decide, by decide⟩,
    C5_msg_placeholder_extraction (toL "abc") (by decide) (by decide) (by decide)⟩

/-- Counterexample to C5 as stated: for the key "a_b" (an ordinary key
containing an underscore) the placeholder `__MSG_a_b__` yields nothing —
the pattern's `[^_]+` capture cannot cross the inner underscore. -/
theorem C5_counterexample_underscore_key :
    extractInto [] (msgToken (toL "a_b")) = []
    ∧ ¬ toL "a_b" ∈ extractInto [] (msgToken (toL "a_b")) := by
  decide

/-! ## Claim C6: the source rewriter's frame and replacement behavior -/

/-- A one-occurrence artifact `i18n.getMessage("<key>")`. -/
def mkCallArtifact (k : List Char) : List Char :=
  toL "i18n.getMessage(" ++ dQuote :: (k ++ dQuote :: toL ")")

/-! ## Claim C7: unreadable artifacts are skipped, the scan continues -/

theorem foldl_scanStep_fst (l : List Artifact) :
    ∀ ks ws ws', (l.foldl scanStep (ks, ws)).1 = (l.foldl scanStep (ks, ws')).1 := by
  induction l with
  | nil => intro ks ws ws'; rfl
  | cons a l ih =>
    intro ks ws ws'
    show (l.foldl scanStep (scanStep (ks, ws) a)).1
      = (l.foldl scanStep (scanStep (ks, ws') a)).1
    cases ha : a.result with
    | ok content =>
      simp only [scanStep, ha]
      exact ih (extractInto ks content) ws ws'
    | unreadable =>
      simp only [scanStep, ha]
      exact ih ks (ws ++ [a.name]) (ws' ++ [a.name])

theorem foldl_scanStep_snd_grows (l : List Artifact) :
    ∀ ks ws, ∃ tail, (l.foldl scanStep (ks, ws)).2 = ws ++ tail := by
  induction l with
  | nil =>
    intro ks ws
    exact ⟨[], (List.append_nil ws).symm⟩
  | cons a l ih =>
    intro ks ws
    show ∃ tail, (l.foldl scanStep (scanStep (ks, ws) a)).2 = ws ++ tail
    cases ha : a.result with
    | ok content =>
      simp only [scanStep, ha]
      exact ih (extractInto ks content) ws
    | unreadable =>
      simp only [scanStep, ha]
      obtain ⟨tail, htail⟩ := ih ks (ws ++ [a.name])
      exact ⟨[a.name] ++ tail, by rw [htail, List.append_assoc]⟩

/-- **C7**.  An unreadable artifact anywhere in the enumeration records a
warning and is skipped: the key set is exactly the one obtained from the
remaining readable artifacts, and the scan is never aborted. -/
theorem C7_unreadable_artifact_skipped (pre post : List Artifact) (name : String) :
    (scan_code_for_keys (pre ++ ⟨name, ReadResult.unreadable⟩ :: post)).1
      = (scan_code_for_keys (pre ++ post)).1
    ∧ name ∈ (scan_code_for_keys (pre ++ ⟨name, ReadResult.unreadable⟩ :: post)).2 := by
  unfold scan_code_for_keys
  rw [List.foldl_append, List.foldl_append]
  have hbad : (⟨name, ReadResult.unreadable⟩ :: post).foldl scanStep
        (pre.foldl scanStep ([], []))
      = post.foldl scanStep ((pre.foldl scanStep ([], [])).1,
          (pre.foldl scanStep ([], [])).2 ++ [name]) := rfl
  rw [hbad]
  constructor
  · exact foldl_scanStep_fst post (pre.foldl scanStep ([], [])).1
      ((pre.foldl scanStep ([], [])).2 ++ [name]) (pre.foldl scanStep ([], [])).2
  · obtain ⟨tail, htail⟩ := foldl_scanStep_snd_grows post
      (pre.foldl scanStep ([], [])).1 ((pre.foldl scanStep ([], [])).2 ++ [name])
    rw [htail, List.append_assoc]
    refine List.mem_append_right _ ?_
    exact List.mem_append_left tail (List.mem_singleton.mpr rfl)

/-! ## Claim C8: a tombstone target is substituted as the literal "None" -/

/-- A two-occurrence artifact referencing the tombstoned key through a
call and an attribute. -/
def exC8Content : List Char :=
  mkCallArtifact (toL "branch_selectModel") ++ '\n' ::
    (toL "data-i18n=" ++ dQuote :: (toL "branch_selectModel" ++ [dQuote]))

/-- **C8**.  The built-in mapping carries `branch_selectModel → None`; the
reference-update phase renders the tombstone as the literal text "None"
and substitutes it for the old key in every matching occurrence (the
usage lookup finds the file, so it is rewritten). -/
theorem C8_tombstone_substitutes_None :
    (("branch_selectModel", (none : Option String)) ∈ merge_mapping)
    ∧ renderTarget none = toL "None"
    ∧ update_code_references_file (toL "branch_selectModel") none exC8Content
        = mkCallArtifact (toL "None") ++ '\n' ::
            (toL "data-i18n=" ++ dQuote :: (toL "None" ++ [dQuote])) := by
  refine ⟨by decide, rfl, by decide⟩

/-! ## Claim C9: manifest placeholders are invisible to the rewriter -/

/-- **C9**.  The per-key usage lookup and the source rewriter only carry
the call and attribute pattern families, all of which require a `(` or an
`=`; a text free of both characters — such as the `__MSG_<key>__`
placeholder form of any word-character key — is never located by the
lookup and never modified (nor rewritten on disk); moreover `.json`
artifacts such as `manifest.json` fall outside the rewriter's scan
patterns. -/
theorem C9_manifest_refs_untouched :
    (∀ (old nk content : List Char), '(' ∉ content → '=' ∉ content →
        update_file_key_references old nk content = content
        ∧ updateFileWritten old nk content = false
        ∧ find_key_usage_lines old content = [])
    ∧ (∀ k : List Char, (∀ c ∈ k, isWordCh c = true) →
        '(' ∉ msgToken k ∧ '=' ∉ msgToken k)
    ∧ scan_patterns_merger.all (fun pat => !(globNameCouldMatch pat "manifest.json")) = true := by
  refine ⟨?_, ?_, by decide⟩
  · intro old nk content hp he
    have hnone : ∀ m ∈ mergerMatchers old, ∀ n, m.core (content.drop n) = none := by
      intro m hm n
      exact mergerMatchers_core_none old (content.drop n)
        (fun hmem => hp (List.drop_subset n content hmem))
        (fun hmem => he (List.drop_subset n content hmem)) m hm
    have hid := foldl_applySub_id (mergerMatchers old) nk content hnone
    refine ⟨hid, ?_, ?_⟩
    · rw [updateFileWritten,
        show update_file_key_references old nk content = content from hid]
      exact bne_self_eq_false content
    · rw [find_key_usage_lines, List.filter_eq_nil_iff]
      intro line hline
      have hpl : '(' ∉ line := by
        intro hmem
        rcases mem_of_mem_splitLinesKeep content line '(' hline hmem with h | h
        · exact hp h
        · exact absurd h (by decide)
      have hel : '=' ∉ line := by
        intro hmem
        rcases mem_of_mem_splitLinesKeep content line '=' hline hmem with h | h
        · exact he h
        · exact absurd h (by decide)
      have hempty : ∀ m ∈ mergerMatchers old, findAllCaptures m line = [] := by
        intro m hm
        refine findAllCaptures_nil m line (fun n => ?_)
        exact mergerMatchers_core_none old (line.drop n)
          (fun hmem => hpl (List.drop_subset n line hmem))
          (fun hmem => hel (List.drop_subset n line hmem)) m hm
      intro hany
      rcases List.any_eq_true.mp hany with ⟨m, hm, hne⟩
      rw [hempty m hm] at hne
      cases hne
  · intro k hw
    constructor
    · intro hmem
      rw [msgToken] at hmem
      rcases List.mem_append.mp hmem with h1 | h2
      · rcases List.mem_append.mp h1 with h1 | h1
        · exact absurd h1 (by decide)
        · have := hw '(' h1
          cases this
      · exact absurd h2 (by decide)
    · intro hmem
      rw [msgToken] at hmem
      rcases List.mem_append.mp hmem with h1 | h2
      · rcases List.mem_append.mp h1 with h1 | h1
        · exact absurd h1 (by decide)
        · have := hw '=' h1
          cases this
      · exact absurd h2 (by decide)

/-- Witness for `C9_manifest_refs_untouched`: a file holding only the
placeholder `__MSG_abc__` is neither located nor modified. -/
theorem C9_manifest_refs_untouched_witness :
    ('(' ∉ msgToken (toL "abc") ∧ '=' ∉ msgToken (toL "abc"))
    ∧ update_file_key_references (toL "abc") (toL "x") (msgToken (toL "abc"))
        = msgToken (toL "abc")
    ∧ updateFileWritten (toL "abc") (toL "x") (msgToken (toL "abc")) = false
    ∧ find_key_usage_lines (toL "abc") (msgToken (toL "abc")) = [] :=
  ⟨⟨by decide, by decide⟩,
    (C9_manifest_refs_untouched.1 (toL "abc") (toL "x") (msgToken (toL "abc"))
      (by decide) (by decide)).1,
    (C9_manifest_refs_untouched.1 (toL "abc") (toL "x") (msgToken (toL "abc"))
      (by decide) (by decide)).2.1,
    (C9_manifest_refs_untouched.1 (toL "abc") (toL "x") (msgToken (toL "abc"))
      (by decide) (by decide)).2.2⟩

/-! ## C6 strengthening: all case variants of the old key are matched -/

theorem pLit_ci_complete (lit : List Char) :
    ∀ (v rest : List Char), v.map Char.toLower = lit.map Char.toLower →
      pLit lit (v ++ rest) = some (v, rest) := by
  induction lit with
  | nil =>
    intro v rest h
    rw [List.map_nil, List.map_eq_nil_iff] at h
    rw [h]
    rfl
  | cons l ls ih =>
    intro v rest h
    cases v with
    | nil => rw [List.map_nil, List.map_cons] at h; cases h
    | cons c vs =>
      rw [List.map_cons, List.map_cons, List.cons.injEq] at h
      rw [List.cons_append, pLit, if_pos (show lowEq c l = true by
        simp [lowEq, h.1]), ih vs rest h.2]
      rfl

theorem pseq_eq (a b : PScan) (cs m1 r1 m2 r2 : List Char)
    (h1 : a cs = some (m1, r1)) (h2 : b r1 = some (m2, r2)) :
    pseq a b cs = some (m1 ++ m2, r2) := by
  rw [pseq, h1, Option.some_bind, h2]
  rfl

theorem pWs_nospace (c : Char) (cs : List Char) (h : isSpaceCh c = false) :
    pWs (c :: cs) = some ([], c :: cs) := by
  rw [pWs, List.takeWhile_cons, List.dropWhile_cons, h]
  rfl

theorem pCharIn_hit (c : Char) (set : List Char) (cs : List Char) (h : c ∈ set) :
    pCharIn set (c :: cs) = some ([c], cs) := by
  rw [pCharIn]
  rw [if_pos h]

theorem subFuel_empty (m : Matcher) (nk : List Char) :
    ∀ f prev, subFuel m nk f prev [] = [] := by
  intro f prev
  cases f <;> rfl

theorem subFuel_with_match (m : Matcher) (nk : List Char) (f : Nat)
    (prev : Option Char) (c : Char) (cs g1 g2 g3 : List Char)
    (h : m.run prev (c :: cs) = some (g1, g2, g3, [])) :
    subFuel m nk (f + 1) prev (c :: cs) = g1 ++ nk ++ g3 := by
  rw [subFuel, h]
  show g1 ++ nk ++ g3 ++ subFuel m nk f (matchLast g1 g2 g3 prev) [] = g1 ++ nk ++ g3
  rw [subFuel_empty, List.append_nil]

/-- The first merger pattern matches `i18n.getMessage("<v>")` for every
old key and every case variant `v` of it, capturing exactly the three
groups. -/
theorem m1_match_call (old v : List Char)
    (hv : v.map Char.toLower = old.map Char.toLower) :
    (mkM noGuard aCall1 (keyLit old) cCallEnd).run none (mkCallArtifact v)
      = some (toL "i18n.getMessage(" ++ [dQuote], v, dQuote :: toL ")", []) := by
  rw [Matcher.run,
    if_pos (show (mkM noGuard aCall1 (keyLit old) cCallEnd).guard none
      = true from rfl)]
  show chain3 aCall1 (keyLit old) cCallEnd (mkCallArtifact v)
    = some (toL "i18n.getMessage(" ++ [dQuote], v, dQuote :: toL ")", [])
  have hopen : pCallOpen ('(' :: dQuote :: (v ++ dQuote :: toL ")"))
      = some (['(', dQuote], v ++ dQuote :: toL ")") := by
    have h1 := pWs_nospace '(' (dQuote :: (v ++ dQuote :: toL ")")) (by decide)
    have h2 : pParen ('(' :: dQuote :: (v ++ dQuote :: toL ")"))
        = some (['('], dQuote :: (v ++ dQuote :: toL ")")) :=
      pCharIn_hit '(' ['('] (dQuote :: (v ++ dQuote :: toL ")")) (by decide)
    have h3 := pWs_nospace dQuote (v ++ dQuote :: toL ")") (by decide)
    have h4 : pQuote (dQuote :: (v ++ dQuote :: toL ")"))
        = some ([dQuote], v ++ dQuote :: toL ")") :=
      pCharIn_hit dQuote [sQuote, dQuote] (v ++ dQuote :: toL ")") (by decide)
    rw [pCallOpen]
    rw [pseq_eq _ _ _ _ _ _ _ h1 (pseq_eq _ _ _ _ _ _ _ h2 (pseq_eq _ _ _ _ _ _ _ h3 h4))]
    rfl
  have ha : aCall1 (mkCallArtifact v)
      = some (toL "i18n.getMessage(" ++ [dQuote], v ++ dQuote :: toL ")") := by
    rw [aCall1]
    have hlit : pLit (toL "i18n.getMessage") (mkCallArtifact v)
        = some (toL "i18n.getMessage", '(' :: dQuote :: (v ++ dQuote :: toL ")")) := by
      rw [show mkCallArtifact v
        = toL "i18n.getMessage" ++ ('(' :: dQuote :: (v ++ dQuote :: toL ")")) from by
          rw [mkCallArtifact]; rfl]
      exact pLit_refl _ _
    rw [pseq_eq _ _ _ _ _ _ _ hlit hopen]
    rfl
  have hb : keyLit old (v ++ dQuote :: toL ")")
      = some (v, dQuote :: toL ")") := pLit_ci_complete old v _ hv
  have hc : cCallEnd (dQuote :: toL ")") = some (dQuote :: toL ")", []) := by decide
  rw [chain3, ha, Option.some_bind, hb, Option.some_bind, hc]
  rfl

/-- The first `re.sub` pass rewrites the one-call artifact for every old
key, every new key and every case variant of the old key, substituting
the new key exactly. -/
theorem applySub_m1_call (old nk v : List Char)
    (hv : v.map Char.toLower = old.map Char.toLower) :
    applySub (mkM noGuard aCall1 (keyLit old) cCallEnd) nk (mkCallArtifact v)
      = mkCallArtifact nk := by
  have hrun := m1_match_call old v hv
  have hshape : mkCallArtifact v
      = 'i' :: (toL "18n.getMessage(" ++ dQuote :: (v ++ dQuote :: toL ")")) := by
    rw [mkCallArtifact]
    rfl
  rw [hshape] at hrun
  rw [applySub, hshape, List.length_cons,
    subFuel_with_match _ _ _ _ _ _ _ _ _ hrun]
  simp [mkCallArtifact, List.append_assoc]

/-- A one-occurrence artifact `data-i18n="<key>"`. -/
def mkAttrArtifact (k : List Char) : List Char :=
  toL "data-i18n=" ++ dQuote :: (k ++ [dQuote])

/-- The fifth merger pattern matches `data-i18n="<v>"` for every old key
and every case variant `v` of it, capturing exactly the three groups. -/
theorem m5_match_attr (old v : List Char)
    (hv : v.map Char.toLower = old.map Char.toLower) :
    (mkM noGuard (aAttr "data-i18n") (keyLit old) pQuote).run none
      (mkAttrArtifact v)
      = some (toL "data-i18n=" ++ [dQuote], v, [dQuote], []) := by
  rw [Matcher.run,
    if_pos (show (mkM noGuard (aAttr "data-i18n") (keyLit old) pQuote).guard
      none = true from rfl)]
  show chain3 (aAttr "data-i18n") (keyLit old) pQuote (mkAttrArtifact v)
    = some (toL "data-i18n=" ++ [dQuote], v, [dQuote], [])
  have ha : aAttr "data-i18n" (mkAttrArtifact v)
      = some (toL "data-i18n=" ++ [dQuote], v ++ [dQuote]) := by
    have hlit : pLit (toL "data-i18n") (mkAttrArtifact v)
        = some (toL "data-i18n", '=' :: dQuote :: (v ++ [dQuote])) := by
      rw [show mkAttrArtifact v
        = toL "data-i18n" ++ ('=' :: dQuote :: (v ++ [dQuote])) from by
          rw [mkAttrArtifact]; rfl]
      exact pLit_refl _ _
    have h1 := pWs_nospace '=' (dQuote :: (v ++ [dQuote])) (by decide)
    have h2 : pEq ('=' :: dQuote :: (v ++ [dQuote]))
        = some (['='], dQuote :: (v ++ [dQuote])) :=
      pCharIn_hit '=' ['='] (dQuote :: (v ++ [dQuote])) (by decide)
    have h3 := pWs_nospace dQuote (v ++ [dQuote]) (by decide)
    have h4 : pQuote (dQuote :: (v ++ [dQuote])) = some ([dQuote], v ++ [dQuote]) :=
      pCharIn_hit dQuote [sQuote, dQuote] (v ++ [dQuote]) (by decide)
    rw [aAttr]
    rw [pseq_eq _ _ _ _ _ _ _ hlit
      (pseq_eq _ _ _ _ _ _ _ h1 (pseq_eq _ _ _ _ _ _ _ h2 (pseq_eq _ _ _ _ _ _ _ h3 h4)))]
    rfl
  have hb : keyLit old (v ++ [dQuote]) = some (v, [dQuote]) :=
    pLit_ci_complete old v _ hv
  have hc : pQuote [dQuote] = some ([dQuote], []) := by decide
  rw [chain3, ha, Option.some_bind, hb, Option.some_bind, hc]
  rfl

/-- The fifth `re.sub` pass rewrites the one-attribute artifact for every
old key, every new key and every case variant of the old key,
substituting the new key exactly. -/
theorem applySub_m5_attr (old nk v : List Char)
    (hv : v.map Char.toLower = old.map Char.toLower) :
    applySub (mkM noGuard (aAttr "data-i18n") (keyLit old) pQuote)
      nk (mkAttrArtifact v) = mkAttrArtifact nk := by
  have hrun := m5_match_attr old v hv
  have hshape : mkAttrArtifact v
      = 'd' :: (toL "ata-i18n=" ++ dQuote :: (v ++ [dQuote])) := by
    rw [mkAttrArtifact]
    rfl
  rw [hshape] at hrun
  rw [applySub, hshape, List.length_cons,
    subFuel_with_match _ _ _ _ _ _ _ _ _ hrun]
  simp [mkAttrArtifact, List.append_assoc]

/-! ## C6: universal soundness of the eight patterns and of the passes -/

theorem cCallEnd_reconstructs : Reconstructs cCallEnd :=
  pseq_reconstructs (pCharIn_reconstructs _)
    (pseq_reconstructs pWs_reconstructs (pCharIn_reconstructs _))

/-- Soundness of the case-insensitive literal: whatever it consumes is a
case variant of the literal. -/
theorem pLit_ci_sound (lit : List Char) :
    ∀ cs t r, pLit lit cs = some (t, r) →
      t.map Char.toLower = lit.map Char.toLower := by
  induction lit with
  | nil =>
    intro cs t r h
    cases h
    rfl
  | cons l ls ih =>
    intro cs t r h
    cases cs with
    | nil => cases h
    | cons c cs =>
      rw [pLit] at h
      by_cases hl : lowEq c l = true
      · rw [if_pos hl] at h
        rcases Option.map_eq_some'.mp h with ⟨⟨t', r'⟩, hp, heq⟩
        cases heq
        have hcl : c.toLower = l.toLower := by simpa [lowEq] using hl
        rw [List.map_cons, List.map_cons, ih cs t' r' hp, hcl]
      · rw [if_neg hl] at h
        cases h

/-- A pattern whose key part is the escaped old key matches only by
consuming exactly its three groups, and its key group is a case variant
of the old key. -/
theorem mkM_keyLit_sound {g : Option Char → Bool} {a c : PScan} (old : List Char)
    (ha : Reconstructs a) (hc : Reconstructs c) (prev : Option Char)
    (cs g1 g2 g3 rest : List Char)
    (h : (mkM g a (keyLit old) c).run prev cs = some (g1, g2, g3, rest)) :
    cs = g1 ++ (g2 ++ (g3 ++ rest))
    ∧ g2.map Char.toLower = old.map Char.toLower := by
  rw [Matcher.run] at h
  split at h
  · obtain ⟨r1, r2, h1, h2, h3⟩ := chain3_parts a (keyLit old) c cs g1 g2 g3 rest h
    refine ⟨?_, pLit_ci_sound old r1 g2 r2 h2⟩
    rw [ha cs g1 r1 h1, pLit_reconstructs old r1 g2 r2 h2, hc r2 g3 rest h3]
  · cases h

/-- Every match of every one of the eight per-key patterns consumes
exactly its three groups (so `\1<new>\3` preserves all surrounding
syntax), and the key group is a case variant of the old key. -/
theorem mergerMatchers_sound (old : List Char) (m : Matcher)
    (hm : m ∈ mergerMatchers old) (prev : Option Char)
    (cs g1 g2 g3 rest : List Char)
    (h : m.run prev cs = some (g1, g2, g3, rest)) :
    cs = g1 ++ (g2 ++ (g3 ++ rest))
    ∧ g2.map Char.toLower = old.map Char.toLower := by
  rw [mergerMatchers] at hm
  simp only [List.mem_cons, List.not_mem_nil, or_false] at hm
  rcases hm with rfl | rfl | rfl | rfl | rfl | rfl | rfl | rfl
  · exact mkM_keyLit_sound old aCall1_reconstructs cCallEnd_reconstructs prev cs g1 g2 g3 rest h
  · exact mkM_keyLit_sound old aCall2_reconstructs cCallEnd_reconstructs prev cs g1 g2 g3 rest h
  · exact mkM_keyLit_sound old aCall3_reconstructs cCallEnd_reconstructs prev cs g1 g2 g3 rest h
  · exact mkM_keyLit_sound old aCall4_reconstructs cCallEnd_reconstructs prev cs g1 g2 g3 rest h
  · exact mkM_keyLit_sound old (aAttr_reconstructs "data-i18n")
      (pCharIn_reconstructs [sQuote, dQuote]) prev cs g1 g2 g3 rest h
  · exact mkM_keyLit_sound old (aAttr_reconstructs "data-i18n-title")
      (pCharIn_reconstructs [sQuote, dQuote]) prev cs g1 g2 g3 rest h
  · exact mkM_keyLit_sound old (aAttr_reconstructs "data-i18n-placeholder")
      (pCharIn_reconstructs [sQuote, dQuote]) prev cs g1 g2 g3 rest h
  · exact mkM_keyLit_sound old aAttr8_reconstructs
      (pCharIn_reconstructs [sQuote, dQuote]) prev cs g1 g2 g3 rest h

/-- Every match of the matcher splits its input into the three groups and
the rest, and consumes at least one character. -/
def MatchSplits (m : Matcher) : Prop :=
  ∀ (prev : Option Char) (cs g1 g2 g3 rest : List Char),
    m.run prev cs = some (g1, g2, g3, rest) →
      cs = g1 ++ (g2 ++ (g3 ++ rest)) ∧ g1 ≠ []

theorem mkM_matchSplits {g : Option Char → Bool} {a b c : PScan} {ch : Char}
    (hmem : ∀ cs m r, a cs = some (m, r) → ch ∈ m)
    (ha : Reconstructs a) (hb : Reconstructs b) (hc : Reconstructs c) :
    MatchSplits (mkM g a b c) := by
  intro prev cs g1 g2 g3 rest h
  rw [Matcher.run] at h
  split at h
  · obtain ⟨r1, r2, h1, h2, h3⟩ := chain3_parts a b c cs g1 g2 g3 rest h
    refine ⟨?_, List.ne_nil_of_mem (hmem cs g1 r1 h1)⟩
    rw [ha cs g1 r1 h1, hb r1 g2 r2 h2, hc r2 g3 rest h3]
  · cases h

theorem mergerMatchers_splits (old : List Char) :
    ∀ m ∈ mergerMatchers old, MatchSplits m := by
  intro m hm
  rw [mergerMatchers] at hm
  simp only [List.mem_cons, List.not_mem_nil, or_false] at hm
  rcases hm with rfl | rfl | rfl | rfl | rfl | rfl | rfl | rfl
  · exact mkM_matchSplits aCall1_paren_mem aCall1_reconstructs
      (pLit_reconstructs old) cCallEnd_reconstructs
  · exact mkM_matchSplits aCall2_paren_mem aCall2_reconstructs
      (pLit_reconstructs old) cCallEnd_reconstructs
  · exact mkM_matchSplits aCall3_paren_mem aCall3_reconstructs
      (pLit_reconstructs old) cCallEnd_reconstructs
  · exact mkM_matchSplits aCall4_paren_mem aCall4_reconstructs
      (pLit_reconstructs old) cCallEnd_reconstructs
  · exact mkM_matchSplits (aAttr_eq_mem "data-i18n") (aAttr_reconstructs _)
      (pLit_reconstructs old) (pCharIn_reconstructs _)
  · exact mkM_matchSplits (aAttr_eq_mem "data-i18n-title") (aAttr_reconstructs _)
      (pLit_reconstructs old) (pCharIn_reconstructs _)
  · exact mkM_matchSplits (aAttr_eq_mem "data-i18n-placeholder") (aAttr_reconstructs _)
      (pLit_reconstructs old) (pCharIn_reconstructs _)
  · exact mkM_matchSplits aAttr8_eq_mem aAttr8_reconstructs
      (pLit_reconstructs old) (pCharIn_reconstructs _)

/-- Claim-side specification of one `re.sub` pass, following the claim
wording: the text is scanned left to right threading the previous
character; a position where the pattern does not match is copied to the
output verbatim, and at a match the output receives the first group, the
exact replacement key, and the third group, the scan resuming after the
match. -/
inductive SubSpec (m : Matcher) (nk : List Char) :
    Option Char → List Char → List Char → Prop
  | nil (prev : Option Char) : SubSpec m nk prev [] []
  | copy (prev : Option Char) (c : Char) (cs out : List Char)
      (hrun : m.run prev (c :: cs) = none)
      (hrec : SubSpec m nk (some c) cs out) :
      SubSpec m nk prev (c :: cs) (c :: out)
  | subst (prev : Option Char) (c : Char) (cs g1 g2 g3 rest out : List Char)
      (hrun : m.run prev (c :: cs) = some (g1, g2, g3, rest))
      (hrec : SubSpec m nk (matchLast g1 g2 g3 prev) rest out) :
      SubSpec m nk prev (c :: cs) (g1 ++ nk ++ g3 ++ out)

theorem subFuel_spec (m : Matcher) (nk : List Char) (hm : MatchSplits m) :
    ∀ (f : Nat) (prev : Option Char) (cs : List Char), cs.length ≤ f →
      SubSpec m nk prev cs (subFuel m nk f prev cs) := by
  intro f
  induction f with
  | zero =>
    intro prev cs hlen
    cases cs with
    | nil => exact SubSpec.nil prev
    | cons c cs => exact absurd hlen (by simp)
  | succ f ih =>
    intro prev cs hlen
    cases cs with
    | nil => exact SubSpec.nil prev
    | cons c cs =>
      cases hrun : m.run prev (c :: cs) with
      | none =>
        have hred : subFuel m nk (f + 1) prev (c :: cs)
            = c :: subFuel m nk f (some c) cs := by
          rw [subFuel, hrun]
        rw [hred]
        exact SubSpec.copy prev c cs _ hrun
          (ih (some c) cs (Nat.le_of_succ_le_succ hlen))
      | some res =>
        obtain ⟨g1, g2, g3, rest⟩ := res
        obtain ⟨hsplit, hne⟩ := hm prev (c :: cs) g1 g2 g3 rest hrun
        have hlen2 := congrArg List.length hsplit
        simp only [List.length_cons, List.length_append] at hlen2
        have hg1 : 0 < g1.length :=
          Nat.pos_of_ne_zero (fun h0 => hne (List.eq_nil_of_length_eq_zero h0))
        have hlen1 : cs.length + 1 ≤ f + 1 := by simpa using hlen
        have hrest : rest.length ≤ f := by omega
        have hred : subFuel m nk (f + 1) prev (c :: cs)
            = g1 ++ nk ++ g3 ++ subFuel m nk f (matchLast g1 g2 g3 prev) rest := by
          rw [subFuel, hrun]
        rw [hred]
        exact SubSpec.subst prev c cs g1 g2 g3 rest _ hrun
          (ih (matchLast g1 g2 g3 prev) rest hrest)

/-- Each `re.sub` pass of the rewriter satisfies the claim-side pass
specification, for every content. -/
theorem applySub_spec (m : Matcher) (nk : List Char) (hm : MatchSplits m)
    (content : List Char) :
    SubSpec m nk none content (applySub m nk content) :=
  subFuel_spec m nk hm content.length none content (Nat.le_refl _)

/-- Claim-side specification of the chained rewrite: the passes are
applied in source order, each one satisfying the single-pass
specification with the output of the previous pass as its input. -/
def PipeSpec (nk : List Char) : List Matcher → List Char → List Char → Prop
  | [], content, out => out = content
  | m :: ms, content, out =>
      ∃ mid, SubSpec m nk none content mid ∧ PipeSpec nk ms mid out

theorem foldl_applySub_pipe (nk : List Char) :
    ∀ (ms : List Matcher), (∀ m ∈ ms, MatchSplits m) → ∀ content,
      PipeSpec nk ms content (ms.foldl (fun c m => applySub m nk c) content) := by
  intro ms
  induction ms with
  | nil =>
    intro _ content
    exact rfl
  | cons m ms ih =>
    intro hms content
    exact ⟨applySub m nk content,
      applySub_spec m nk (hms m (List.mem_cons_self m ms)) content,
      ih (fun mm hmm => hms mm (List.mem_cons_of_mem m hmm)) (applySub m nk content)⟩

theorem isPrefixOf_self_append (l t : List Char) : l.isPrefixOf (l ++ t) = true := by
  induction l with
  | nil => cases t <;> rfl
  | cons c l ih =>
    show (c == c && l.isPrefixOf (l ++ t)) = true
    simp [ih]

theorem hasInfix_of_decomp (needle hay pre post : List Char)
    (h : hay = pre ++ (needle ++ post)) : hasInfix needle hay = true := by
  rw [hasInfix, List.any_eq_true]
  refine ⟨needle ++ post, ?_, isPrefixOf_self_append needle post⟩
  rw [h]
  have hmem := drop_mem_tails (pre ++ (needle ++ post)) pre.length
  rw [List.drop_left] at hmem
  exact hmem

/-- If the old key does not occur case-insensitively in the content, none
of the eight per-key patterns matches at any position. -/
theorem mergerMatchers_core_none_no_occ (old content : List Char)
    (h : hasInfix (old.map Char.toLower) (content.map Char.toLower) = false) :
    ∀ m ∈ mergerMatchers old, ∀ n, m.core (content.drop n) = none := by
  intro m hm n
  cases hcore : m.core (content.drop n) with
  | none => rfl
  | some res =>
    exfalso
    obtain ⟨g1, g2, g3, rest⟩ := res
    have hg : m.guard none = true := by
      rw [mergerMatchers] at hm
      simp only [List.mem_cons, List.not_mem_nil, or_false] at hm
      rcases hm with rfl | rfl | rfl | rfl | rfl | rfl | rfl | rfl <;> rfl
    have hrun : m.run none (content.drop n) = some (g1, g2, g3, rest) := by
      rw [Matcher.run, if_pos hg]
      exact hcore
    obtain ⟨hsplit, hci⟩ :=
      mergerMatchers_sound old m hm none (content.drop n) g1 g2 g3 rest hrun
    have hdec : content.map Char.toLower
        = ((content.take n).map Char.toLower ++ g1.map Char.toLower)
          ++ (old.map Char.toLower ++ (g3 ++ rest).map Char.toLower) := by
      rw [← hci]
      conv_lhs => rw [show content = content.take n ++ content.drop n from
        (List.take_append_drop n content).symm]
      rw [hsplit]
      simp [List.map_append, List.append_assoc]
    exact absurd (hasInfix_of_decomp _ _ _ _ hdec) (by simp [h])

theorem foldl_applySub_cons (m : Matcher) (ms : List Matcher) (nk content : List Char) :
    List.foldl (fun c mm => applySub mm nk c) content (m :: ms)
      = List.foldl (fun c mm => applySub mm nk c) (applySub m nk content) ms := rfl

/-- For every old and new key, the full eight-pass rewriter turns the
one-call artifact holding any case variant of the old key into the
artifact holding exactly the new key, provided the old key does not also
occur in the rewritten artifact. -/
theorem update_call_artifact (old nk v : List Char)
    (hv : v.map Char.toLower = old.map Char.toLower)
    (hno : hasInfix (old.map Char.toLower)
      ((mkCallArtifact nk).map Char.toLower) = false) :
    update_file_key_references old nk (mkCallArtifact v) = mkCallArtifact nk := by
  rw [update_file_key_references, mergerMatchers, foldl_applySub_cons,
    applySub_m1_call old nk v hv]
  refine foldl_applySub_id _ nk _ (fun m hm n => ?_)
  refine mergerMatchers_core_none_no_occ old (mkCallArtifact nk) hno m ?_ n
  rw [mergerMatchers]
  exact List.mem_cons_of_mem _ hm

/-- For every old and new key, the full eight-pass rewriter turns the
one-attribute artifact holding any case variant of the old key into the
artifact holding exactly the new key, provided the old key holds no
parenthesis and does not also occur in the rewritten artifact. -/
theorem update_attr_artifact (old nk v : List Char)
    (hv : v.map Char.toLower = old.map Char.toLower)
    (hpar : '(' ∉ old.map Char.toLower)
    (hno : hasInfix (old.map Char.toLower)
      ((mkAttrArtifact nk).map Char.toLower) = false) :
    update_file_key_references old nk (mkAttrArtifact v) = mkAttrArtifact nk := by
  have hnv : '(' ∉ v := by
    intro hmem
    have hlow : ('(' : Char).toLower ∈ v.map Char.toLower :=
      List.mem_map.mpr ⟨'(', hmem, rfl⟩
    rw [hv, show ('(' : Char).toLower = '(' from by decide] at hlow
    exact hpar hlow
  have hnc : '(' ∉ mkAttrArtifact v := by
    intro hmem
    rw [mkAttrArtifact] at hmem
    rcases List.mem_append.mp hmem with h1 | h2
    · exact absurd h1 (by decide)
    · rcases List.mem_cons.mp h2 with h2 | h2
      · exact absurd h2 (by decide)
      · rcases List.mem_append.mp h2 with h3 | h3
        · exact hnv h3
        · exact absurd h3 (by decide)
  have hskip : ∀ mm : Matcher, (∀ cs res, mm.core cs = some res → '(' ∈ cs) →
      applySub mm nk (mkAttrArtifact v) = mkAttrArtifact v := by
    intro mm hchar
    refine applySub_id mm _ _ (fun n => ?_)
    cases hcore : mm.core ((mkAttrArtifact v).drop n) with
    | none => rfl
    | some res =>
      exfalso
      exact hnc (List.drop_subset n _ (hchar _ res hcore))
  rw [update_file_key_references, mergerMatchers, foldl_applySub_cons,
    hskip (mkM noGuard aCall1 (keyLit old) cCallEnd)
      (fun cs res h => mkM_char_mem aCall1_paren_mem aCall1_reconstructs cs res h),
    foldl_applySub_cons,
    hskip (mkM noGuard aCall2 (keyLit old) cCallEnd)
      (fun cs res h => mkM_char_mem aCall2_paren_mem aCall2_reconstructs cs res h),
    foldl_applySub_cons,
    hskip (mkM bareGuard aCall3 (keyLit old) cCallEnd)
      (fun cs res h => mkM_char_mem aCall3_paren_mem aCall3_reconstructs cs res h),
    foldl_applySub_cons,
    hskip (mkM noGuard aCall4 (keyLit old) cCallEnd)
      (fun cs res h => mkM_char_mem aCall4_paren_mem aCall4_reconstructs cs res h),
    foldl_applySub_cons,
    applySub_m5_attr old nk v hv]
  refine foldl_applySub_id _ nk _ (fun m hm n => ?_)
  refine mergerMatchers_core_none_no_occ old (mkAttrArtifact nk) hno m ?_ n
  rw [mergerMatchers]
  exact List.mem_cons_of_mem _ (List.mem_cons_of_mem _ (List.mem_cons_of_mem _
    (List.mem_cons_of_mem _ (List.mem_cons_of_mem _ hm))))

/-- **C6**.  For every old key, every new key and every content, the
source rewriter: leaves a content with zero matches byte-for-byte
untouched and does not rewrite the file; refines, pass by pass in source
order, the substitution specification (unmatched characters are copied
verbatim, each match is replaced by its first group, the exact new key,
and its third group); matches only case variants of the old key, each
match consuming exactly its three groups, so the surrounding
call/attribute syntax is preserved; and rewrites the canonical call and
attribute artifacts holding any case variant of the old key to the
artifacts holding exactly the new key. -/
theorem C6_source_rewriter :
    (∀ (old nk content : List Char), noPatternMatch old content = true →
        update_file_key_references old nk content = content
        ∧ updateFileWritten old nk content = false)
    ∧ (∀ (old nk content : List Char),
        PipeSpec nk (mergerMatchers old) content
          (update_file_key_references old nk content))
    ∧ (∀ (old : List Char), ∀ m ∈ mergerMatchers old,
        ∀ (prev : Option Char) (cs g1 g2 g3 rest : List Char),
          m.run prev cs = some (g1, g2, g3, rest) →
            cs = g1 ++ (g2 ++ (g3 ++ rest))
            ∧ g2.map Char.toLower = old.map Char.toLower)
    ∧ (∀ (old nk v : List Char), v.map Char.toLower = old.map Char.toLower →
        hasInfix (old.map Char.toLower)
          ((mkCallArtifact nk).map Char.toLower) = false →
        update_file_key_references old nk (mkCallArtifact v) = mkCallArtifact nk)
    ∧ (∀ (old nk v : List Char), v.map Char.toLower = old.map Char.toLower →
        '(' ∉ old.map Char.toLower →
        hasInfix (old.map Char.toLower)
          ((mkAttrArtifact nk).map Char.toLower) = false →
        update_file_key_references old nk (mkAttrArtifact v) = mkAttrArtifact nk) := by
  refine ⟨?_, ?_, ?_, ?_, ?_⟩
  · intro old nk content h
    have hid := foldl_applySub_id (mergerMatchers old) nk content
      (noPatternMatch_spec old content h)
    refine ⟨hid, ?_⟩
    rw [updateFileWritten,
      show update_file_key_references old nk content = content from hid]
    exact bne_self_eq_false content
  · intro old nk content
    exact foldl_applySub_pipe nk (mergerMatchers old) (mergerMatchers_splits old) content
  · exact mergerMatchers_sound
  · exact update_call_artifact
  · exact update_attr_artifact

/-- Witness for `C6_source_rewriter`: a matchless artifact is untouched;
the first pattern at a concrete old key consumes exactly its three
groups with the key group a case variant of the key; and concrete upper-
and mixed-case variants of an old key are matched and replaced in the
call and attribute artifacts. -/
theorem C6_source_rewriter_witness :
    (noPatternMatch (toL "oldkey") (toL "hello") = true
      ∧ update_file_key_references (toL "oldkey") (toL "x") (toL "hello") = toL "hello"
      ∧ updateFileWritten (toL "oldkey") (toL "x") (toL "hello") = false)
    ∧ (mkCallArtifact (toL "key")
        = (toL "i18n.getMessage(" ++ [dQuote])
          ++ (toL "key" ++ ((dQuote :: toL ")") ++ ([] : List Char)))
      ∧ (toL "key").map Char.toLower = (toL "key").map Char.toLower)
    ∧ update_file_key_references (toL "oldkey") (toL "NewKey")
        (mkCallArtifact (toL "OLDKEY")) = mkCallArtifact (toL "NewKey")
    ∧ update_file_key_references (toL "oldkey") (toL "NewKey")
        (mkAttrArtifact (toL "OldKey")) = mkAttrArtifact (toL "NewKey") :=
  ⟨⟨by decide,
    (C6_source_rewriter.1 (toL "oldkey") (toL "x") (toL "hello") (by decide)).1,
    (C6_source_rewriter.1 (toL "oldkey") (toL "x") (toL "hello") (by decide)).2⟩,
   C6_source_rewriter.2.2.1 (toL "key")
     (mkM noGuard aCall1 (keyLit (toL "key")) cCallEnd)
     (List.mem_cons_self _ _) none (mkCallArtifact (toL "key"))
     (toL "i18n.getMessage(" ++ [dQuote]) (toL "key") (dQuote :: toL ")") []
     (by decide),
   C6_source_rewriter.2.2.2.1 (toL "oldkey") (toL "NewKey") (toL "OLDKEY")
     (by decide) (by decide),
   C6_source_rewriter.2.2.2.2 (toL "oldkey") (toL "NewKey") (toL "OldKey")
     (by decide) (by decide) (by decide)⟩
